import Mathlib

/-!
# Counting semaphore of `src/index.js`

A shallow embedding of the class `Semaphore` (constructor, `P`, `V`, `rejectAll`) together
with the three platform pieces its methods run on:

* the `fastq` work queue stored in `this._queue` (created by `queue(null, () => {}, 1)`),
* promises (`new Promise`, `resolve`, `reject`, `.then(task)`),
* native arrays (`getQueue().shift()`).

The counter `_semaphore` is a JavaScript number.  The methods are embedded twice: first
with the counter as an exact integer and `task` free to call itself any number of times,
then (section "The engine") with the counter rounded as a double and a bound on the nested
calls of `task`.  The two agree while the counter stays within `2 ^ 53` and the arguments
of `P` below that bound.
-/

/-! ## Platform: promises -/

/-- The three states of a JavaScript promise. -/
inductive PromiseState
  | pending
  | fulfilled
  | rejected
  deriving DecidableEq, Repr

/-- Errors a method can throw: `throw new TypeError(...)` of the constructor, the engine's
own `TypeError` for reading a property of `undefined`, and the engine's `RangeError` when
the call stack is full. -/
inductive JSError
  | typeError
  | rangeError
  deriving DecidableEq, Repr

/-! ## Platform: the `fastq` queue

`import queue from 'fastq'` (`src/index.js:17`).  `fastq` is a work queue: `push` hands a task
to the worker at once while fewer than `concurrency` tasks are running, and links it into the
list of waiting tasks only otherwise; the worker announces the end of a task by calling the
callback it is given, and only then is the next waiting task taken.  `length()` counts the
waiting tasks and `getQueue()` copies their values into a new array; a task that is with the
worker is not among them.  Only the members the source uses are embedded. -/

/-- The state of a `fastq` queue: its `concurrency`, the counter `_running` of tasks handed
to the worker and not yet finished, and the values of the linked tasks from `queueHead` to
`queueTail`. -/
structure Fastq (α : Type) where
  concurrency : Nat
  running : Nat
  tasks : List α
  deriving DecidableEq, Repr

/-- The call `queue(null, () => {}, concurrency)`: an idle queue whose worker is `() => {}`. -/
def queue {α : Type} (concurrency : Nat) : Fastq α :=
  { concurrency := concurrency, running := 0, tasks := [] }

/-- The method `push(value)`.  When `_running` has reached `concurrency` the task is linked
at the tail.  Otherwise `_running` is incremented and the worker is called with the value;
the worker of this program is `() => {}`, which drops the value and never calls the
completion callback, so `_running` is never decremented. -/
def Fastq.push {α : Type} (q : Fastq α) (value : α) : Fastq α :=
  if q.concurrency ≤ q.running then
    { q with tasks := q.tasks ++ [value] }
  else
    { q with running := q.running + 1 }

/-- The method `length()`: the number of linked tasks. -/
def Fastq.length {α : Type} (q : Fastq α) : Nat :=
  q.tasks.length

/-- The method `getQueue()`: a new array holding the values of the linked tasks.  The array
is a copy, so `shift()` on it leaves the queue as it is. -/
def Fastq.getQueue {α : Type} (q : Fastq α) : List α :=
  q.tasks

/-- The property read `this._queue.length` without a call, as a loop condition: its value is
the method itself (the one `V` calls as `length()`), a function object, and every object is
true in a condition. -/
def Fastq.lengthIsTruthy {α : Type} (_q : Fastq α) : Bool :=
  true

/-! ## Data model -/

/-- A value passed as `capacity`, classified the way the constructor looks at it. -/
inductive JSValue
  /-- A number with an integral value. -/
  | int (i : Int)
  /-- Any other number: one with a fractional part, `NaN`, `Infinity`, `-Infinity`. -/
  | nonIntegerNumber
  /-- A value that is not a number (a string, `null`, an object, ...). -/
  | nonNumber
  deriving DecidableEq, Repr

/-- `Number.isInteger(capacity)`. -/
def JSValue.isInteger : JSValue → Bool
  | .int _ => true
  | .nonIntegerNumber => false
  | .nonNumber => false

/-- One promise created by `new Promise((resolve, reject) => this._queue.push([resolve,
reject]))` in `P`, with the reaction `.then(task)` attached to it.  `call` is the `P` call
whose `task` created it, `n` the value of that call's variable `n` at that moment (what
`task` reads when it runs again), `resumed` whether the reaction has run. -/
structure Waiter where
  call : Nat
  n : Nat
  state : PromiseState
  resumed : Bool
  deriving DecidableEq, Repr

/-- One call of `P`: the argument it was called with and the state of the promise it
returned. -/
structure Call where
  requested : Nat
  state : PromiseState
  deriving DecidableEq, Repr

/-- History of the statements executed on the counter and the queue.  It is a record for
stating properties; no operation reads it. -/
inductive Event
  /-- The statement `--this._semaphore`. -/
  | dec
  /-- The statement `++this._semaphore`. -/
  | inc
  /-- The call `this._queue.push([resolve, reject])` for waiter `w`. -/
  | push (w : Nat)
  /-- The call `.shift()[0]()`, which is `resolve` of waiter `w`. -/
  | resolve (w : Nat)
  /-- The call `.shift()[1](new Error(...))`, which is `reject` of waiter `w`. -/
  | reject (w : Nat)
  deriving DecidableEq, Repr

/-- A `Semaphore` object with the promises its methods have created.  `_queue` holds
indices into `waiters`; index `w` stands for the pair `[resolve, reject]` of waiter `w`. -/
structure Semaphore where
  _semaphore : Int
  _queue : Fastq Nat
  waiters : List Waiter
  calls : List Call
  trace : List Event
  deriving DecidableEq, Repr

/-- The object the constructor builds for a valid capacity. -/
def Semaphore.fresh (capacity : Int) : Semaphore :=
  { _semaphore := capacity, _queue := queue 1, waiters := [], calls := [], trace := [] }

/-- The constructor (`src/index.js:30-51`), on the value of the parameter `capacity` after
its default `1` has been applied. -/
def Semaphore.new (capacity : JSValue) : Except JSError Semaphore :=
  if !capacity.isInteger then
    .error .typeError
  else
    match capacity with
    | .int i =>
      if i < 0 then .error .typeError
      else .ok (Semaphore.fresh i)
    | _ => .error .typeError

/-! ## Promise operations -/

/-- Settle the promise of call `c` unless it is already settled. -/
def Semaphore.settleCall (s : Semaphore) (c : Nat) (st : PromiseState) : Semaphore :=
  match s.calls[c]? with
  | some x =>
    if x.state = .pending then { s with calls := s.calls.set c { x with state := st } }
    else s
  | none => s

/-- The function `resolve` of waiter `w`: a pending promise becomes fulfilled, a settled one
stays as it is.  The reaction `.then(task)` runs later (see `Semaphore.resume`). -/
def Semaphore.resolve (s : Semaphore) (w : Nat) : Semaphore :=
  match s.waiters[w]? with
  | some x =>
    if x.state = .pending then
      { s with waiters := s.waiters.set w { x with state := .fulfilled } }
    else s
  | none => s

/-- The function `reject` of waiter `w`: a pending promise becomes rejected, a settled one
stays as it is.  The promise that `.then(task)` derives from it, which is what the `P` call
returned or is chained to, is rejected later, when the reaction runs (see
`Semaphore.resume`). -/
def Semaphore.reject (s : Semaphore) (w : Nat) : Semaphore :=
  match s.waiters[w]? with
  | some x =>
    if x.state = .pending then
      { s with waiters := s.waiters.set w { x with state := .rejected } }
    else s
  | none => s

/-! ## The methods -/

/-- The else-branch of `task`: `new Promise((resolve, reject) => this._queue.push([resolve,
reject])).then(task)` for call `c` whose variable `n` now holds `n`. -/
def Semaphore.suspend (s : Semaphore) (c n : Nat) : Semaphore :=
  let w := s.waiters.length
  { s with
    waiters := s.waiters ++ [{ call := c, n := n, state := .pending, resumed := false }]
    _queue := s._queue.push w
    trace := s.trace ++ [.push w] }

/-- The closure `task` of call `c` (`src/index.js:61-72`); the second argument is the
current value of the variable `n`.  With `n` at `0` it returns `Promise.resolve()`, which
fulfils the promise of the call; otherwise `--n`, and then the conditional on
`this._semaphore > 0 && --this._semaphore >= 0`. -/
def Semaphore.task (c : Nat) : Nat → Semaphore → Semaphore
  | 0, s => s.settleCall c .fulfilled
  | n + 1, s =>
    if 0 < s._semaphore then
      let s1 := { s with _semaphore := s._semaphore - 1, trace := s.trace ++ [.dec] }
      if 0 ≤ s1._semaphore then Semaphore.task c n s1
      else s1.suspend c n
    else s.suspend c n

/-- The method `P(n)`: a new call, whose `task` runs at once. -/
def Semaphore.P (n : Nat) (s : Semaphore) : Semaphore :=
  Semaphore.task s.calls.length n
    { s with calls := s.calls ++ [{ requested := n, state := .pending }] }

/-- One round of the loop of `V` (`src/index.js:84-92`): with `length()` not zero,
`getQueue().shift()[0]()` calls `resolve` of the first waiter of the copy (which exists, so
the `none` branch is never taken); otherwise `++this._semaphore`. -/
def Semaphore.signal (s : Semaphore) : Semaphore :=
  if s._queue.length ≠ 0 then
    match s._queue.getQueue.head? with
    | some w => { s.resolve w with trace := s.trace ++ [.resolve w] }
    | none => s
  else
    { s with _semaphore := s._semaphore + 1, trace := s.trace ++ [.inc] }

/-- The method `V(n)`: `while (n--)`. -/
def Semaphore.V : Nat → Semaphore → Semaphore
  | 0, s => s
  | n + 1, s => Semaphore.V n s.signal

/-- How a run of `rejectAll` ends: it returns, it throws, or it is still in its loop when
the fuel is used up. -/
inductive Completion
  | returned
  | threw (e : JSError)
  | unfinished
  deriving DecidableEq, Repr

/-- The method `rejectAll()` (`src/index.js:97-110`), with a bound on the number of rounds
of its loop.  `shift()` on an empty array gives `undefined`, and `undefined[1]` throws. -/
def Semaphore.rejectAll : Nat → Semaphore → Completion × Semaphore
  | 0, s => (.unfinished, s)
  | fuel + 1, s =>
    if s._queue.lengthIsTruthy then
      match s._queue.getQueue.head? with
      | none => (.threw .typeError, s)
      | some w =>
        Semaphore.rejectAll fuel { s.reject w with trace := s.trace ++ [.reject w] }
    else (.returned, s)

/-- The reaction `.then(task)` of waiter `w`: once the promise is fulfilled, `task` runs
(once) for the call that created it; once the promise is rejected, `task` is not run and
the rejection passes to the promise of that call. -/
def Semaphore.resume (w : Nat) (s : Semaphore) : Semaphore :=
  match s.waiters[w]? with
  | some x =>
    if x.state = .fulfilled ∧ x.resumed = false then
      Semaphore.task x.call x.n { s with waiters := s.waiters.set w { x with resumed := true } }
    else if x.state = .rejected then s.settleCall x.call .rejected
    else s
  | none => s

/-! ## Sequences of operations -/

/-- What can happen to a semaphore: a call of one of its three methods with a non-negative
integer argument, or the run of the reaction of a waiter.  `rejectAll k` is `rejectAll()`
observed after at most `k` rounds of its loop. -/
inductive Op
  | P (n : Nat)
  | V (n : Nat)
  | rejectAll (rounds : Nat)
  | resume (w : Nat)
  deriving DecidableEq, Repr

/-- The effect of one operation. -/
def Semaphore.step (s : Semaphore) : Op → Semaphore
  | .P n => s.P n
  | .V n => s.V n
  | .rejectAll k => (s.rejectAll k).2
  | .resume w => s.resume w

/-- The effect of a sequence of operations, first to last. -/
def Semaphore.run (s : Semaphore) (ops : List Op) : Semaphore :=
  ops.foldl Semaphore.step s

/-! ## Properties of states and sequences -/

/-- The counter is not negative, and it is zero whenever the queue holds a waiter. -/
def Semaphore.CounterInv (s : Semaphore) : Prop :=
  0 ≤ s._semaphore ∧ (s._queue.length ≠ 0 → s._semaphore = 0)

/-- Total of the arguments of the `P` calls whose promise is fulfilled. -/
def Semaphore.completedUnits (s : Semaphore) : Nat :=
  ((s.calls.filter (fun c => c.state = .fulfilled)).map Call.requested).sum

/-- The units an operation releases: `n` for `V(n)`, none for the others. -/
def Op.released : Op → Nat
  | .V n => n
  | _ => 0

/-- Total of the arguments of the `V` calls of a sequence. -/
def releasedUnits (ops : List Op) : Nat :=
  (ops.map Op.released).sum

/-- The conservation law in the words of the spec, for the state reached from capacity
`C` by `ops`: `permits == C - A + R` and `permits >= 0`. -/
def Semaphore.ConservationAsStated (C : Nat) (ops : List Op) : Prop :=
  ((Semaphore.fresh C).run ops)._semaphore =
      (C : Int) - ((Semaphore.fresh C).run ops).completedUnits + releasedUnits ops ∧
    0 ≤ ((Semaphore.fresh C).run ops)._semaphore

/-- No `P` call has suspended so far: nothing was pushed, every call is fulfilled, and the
counter is the capacity minus the units of the calls plus the `R` released units. -/
structure Semaphore.Quiet (C R : Nat) (s : Semaphore) : Prop where
  conc : s._queue.concurrency = 1
  idle : s._queue.running = 0
  empty : s._queue.tasks = []
  noWaiter : s.waiters = []
  done : ∀ c ∈ s.calls, c.state = .fulfilled
  nonneg : 0 ≤ s._semaphore
  count : s._semaphore = (C : Int) - ((s.calls.map Call.requested).sum : Nat) + (R : Nat)

/-- Some `P` call has suspended: waiter `0`, created by call `c0`, went to the worker.  It
is pending and outside the queue, call `c0` is pending, and no other waiter belongs to call
`c0`. -/
structure Semaphore.Stuck (c0 : Nat) (s : Semaphore) : Prop where
  busy : s._queue.concurrency ≤ s._queue.running
  first : ∃ x, s.waiters[0]? = some x ∧ x.call = c0 ∧ x.state = .pending
  call : ∃ cl, s.calls[c0]? = some cl ∧ cl.state = .pending
  notQueued : 0 ∉ s._queue.tasks
  others : ∀ i y, 0 < i → s.waiters[i]? = some y → y.call ≠ c0
  bound : ∀ y ∈ s.waiters, y.call < s.calls.length

/-- The two phases of a semaphore: before the first suspension, and after it. -/
def Semaphore.Phase (C R : Nat) (s : Semaphore) : Prop :=
  s.Quiet C R ∨ ∃ c0, s.Stuck c0

/-! ## Units released and units obtained -/

/-- The units taken on the fast path: how often `--this._semaphore` was executed. -/
def Semaphore.fastUnits (s : Semaphore) : Nat :=
  s.trace.count Event.dec

/-- The units handed to a waiter by `V`: the waiters whose promise is fulfilled. -/
def Semaphore.handedUnits (s : Semaphore) : Nat :=
  s.waiters.countP (fun x => x.state = .fulfilled)

/-- The units obtained so far by acquirers, whatever became of their calls: fast-path
decrements plus hand-offs to waiters. -/
def Semaphore.grantedUnits (s : Semaphore) : Nat :=
  s.fastUnits + s.handedUnits

/-- How often `++this._semaphore` was executed. -/
def Semaphore.increments (s : Semaphore) : Nat :=
  s.trace.count Event.inc

/-- Whether an event is a call of `resolve` by `V`. -/
def Event.isResolve : Event → Bool
  | .resolve _ => true
  | _ => false

/-- How often `V` called `resolve` of the head of the queue. -/
def Semaphore.resolveCalls (s : Semaphore) : Nat :=
  s.trace.countP Event.isResolve

/-- The rounds of the loop of `V` executed so far: the unit releases. -/
def Semaphore.rounds (s : Semaphore) : Nat :=
  s.increments + s.resolveCalls

/-- The number of `P` calls whose promise is fulfilled. -/
def Semaphore.fulfilledCalls (s : Semaphore) : Nat :=
  s.calls.countP (fun c => c.state = .fulfilled)

/-- The number of waiters whose reaction `.then(task)` has run. -/
def Semaphore.resumedWaiters (s : Semaphore) : Nat :=
  s.waiters.countP (fun x => x.resumed)

/-- The unit-level conservation law for the state reached from capacity `C` by `ops`:
`permits == C + R - G`. -/
def Semaphore.UnitConservation (C : Nat) (ops : List Op) : Prop :=
  ((Semaphore.fresh C).run ops)._semaphore =
    (C : Int) + releasedUnits ops - ((Semaphore.fresh C).run ops).grantedUnits

/-- The account of the units of a semaphore of capacity `C` after `R` rounds of `V`: the
counter is the capacity minus the fast-path units plus the increments, every round was an
increment or a call of `resolve`, and no more waiters are fulfilled than `resolve` was
called. -/
structure Semaphore.Ledger (C R : Nat) (s : Semaphore) : Prop where
  law : s._semaphore = (C : Int) - s.fastUnits + s.increments
  handed : s.handedUnits ≤ s.resolveCalls
  released : s.increments + s.resolveCalls = R

/-- The link between calls and units when every acquire asks for at least one unit: a
waiter whose reaction has run is fulfilled, and every fulfilled call stands for a unit taken
on the fast path or for a reaction that has run. -/
structure Semaphore.Flow (s : Semaphore) : Prop where
  resumed : ∀ x ∈ s.waiters, x.resumed = true → x.state = .fulfilled
  paid : s.fulfilledCalls ≤ s.fastUnits + s.resumedWaiters

/-! ## The producers and consumers of `src/example.js` -/

/-- The object `stock` (`src/example.js:14-18`) with the calls of `Producer.produce` and
`Consumer.consume` in progress.  Only `produce` calls `notfull.P()` and only `consume`
calls `notempty.P()`, so the `j`-th call of `produce` awaits the `j`-th call of
`notfull.P()`, and likewise for `consume`; `produced[j]` and `consumed[j]` tell whether
that call has gone past its `await`. -/
structure Stock where
  items : Int
  notfull : Semaphore
  notempty : Semaphore
  produced : List Bool
  consumed : List Bool
  deriving DecidableEq, Repr

/-- The stock at the start, with `notfull = new Semaphore(K)` and
`notempty = new Semaphore(0)`; the example has `K = 10`. -/
def Stock.init (K : Nat) : Stock :=
  { items := 0, notfull := Semaphore.fresh K, notempty := Semaphore.fresh 0,
    produced := [], consumed := [] }

/-- What can happen to the stock: a call of `produce` or `consume` runs up to its `await`,
a call whose awaited promise is fulfilled runs from its `await` to its end, or the
reaction of a waiter of one of the two semaphores runs. -/
inductive StockOp
  | produceCall
  | produceResume (j : Nat)
  | consumeCall
  | consumeResume (j : Nat)
  | reactNotfull (w : Nat)
  | reactNotempty (w : Nat)
  deriving DecidableEq, Repr

/-- The effect of one step (`src/example.js:26-31` and `46-51`).  `P()` and `V()` have
their default argument `1`. -/
def Stock.step (st : Stock) : StockOp → Stock
  | .produceCall =>
    { st with notfull := st.notfull.P 1, produced := st.produced ++ [false] }
  | .produceResume j =>
    match st.produced[j]?, st.notfull.calls[j]? with
    | some false, some c =>
      if c.state = .fulfilled then
        { st with items := st.items + 1, notempty := st.notempty.V 1,
                  produced := st.produced.set j true }
      else st
    | _, _ => st
  | .consumeCall =>
    { st with notempty := st.notempty.P 1, consumed := st.consumed ++ [false] }
  | .consumeResume j =>
    match st.consumed[j]?, st.notempty.calls[j]? with
    | some false, some c =>
      if c.state = .fulfilled then
        { st with items := st.items - 1, notfull := st.notfull.V 1,
                  consumed := st.consumed.set j true }
      else st
    | _, _ => st
  | .reactNotfull w => { st with notfull := st.notfull.resume w }
  | .reactNotempty w => { st with notempty := st.notempty.resume w }

/-- The effect of a sequence of steps, first to last. -/
def Stock.run (st : Stock) (ops : List StockOp) : Stock :=
  ops.foldl Stock.step st

/-- What holds of the stock in every reachable state: `items` is the number of calls of
`produce` past their `await` minus that of `consume`; each semaphore has its account, with
the releases on `notfull` made by `consume` and those on `notempty` by `produce`; and a
call is past its `await` only if its acquire is fulfilled. -/
structure Stock.Inv (K : Nat) (st : Stock) : Prop where
  count : st.items = (st.produced.countP id : Int) - st.consumed.countP id
  fullLedger : st.notfull.Ledger K (st.consumed.countP id)
  emptyLedger : st.notempty.Ledger 0 (st.produced.countP id)
  fullCounter : st.notfull.CounterInv
  emptyCounter : st.notempty.CounterInv
  fullFlow : st.notfull.Flow
  emptyFlow : st.notempty.Flow
  fullPassed : ∀ j : Nat, st.produced[j]? = some true →
    ∃ c : Call, st.notfull.calls[j]? = some c ∧ c.state = .fulfilled
  emptyPassed : ∀ j : Nat, st.consumed[j]? = some true →
    ∃ c : Call, st.notempty.calls[j]? = some c ∧ c.state = .fulfilled

/-! ## The engine: doubles and the call stack

The methods above take `_semaphore` as an exact integer and let `task` call itself without
limit.  An engine stores the counter as a double, so `++` and `--` round from `2 ^ 53` on,
and its call stack has room for a limited number of nested calls of `task`.  The
definitions below are the same methods with these two limits; `depth` is the number of
nested calls of `task` the stack has room for, a constant of the engine.  The two
embeddings agree while the counter stays within `2 ^ 53` and the arguments of `P` below
`depth` (`Semaphore.jsRun_eq`). -/

/-- The bound `2 ^ 53`: up to it every integer is a double. -/
def exactMax : Nat := 9007199254740992

/-- The distance between neighbouring doubles around the natural number `a`: `1` below
`2 ^ 53`, doubling with every further power of two.  The first argument bounds the number
of doublings. -/
def jsSpacing : Nat → Nat → Nat
  | 0, _ => 1
  | fuel + 1, a => if a < exactMax then 1 else 2 * jsSpacing fuel (a / 2)

/-- The double nearest to the integer `y`, ties going to the even significand: the value
an arithmetic operation stores when its exact result is `y`. -/
def jsRound (y : Int) : Int :=
  if y.natAbs ≤ exactMax then y
  else
    let q : Nat := jsSpacing 1024 y.natAbs
    let lo : Nat := y.natAbs / q
    let r : Nat := y.natAbs % q
    let m : Nat :=
      if 2 * r < q then lo else if q < 2 * r then lo + 1 else if lo % 2 = 0 then lo else lo + 1
    Int.sign y * ((m * q : Nat) : Int)

/-- The value of `x` after `++x`. -/
def jsInc (x : Int) : Int :=
  jsRound (x + 1)

/-- The value of `x` after `--x`. -/
def jsDec (x : Int) : Int :=
  jsRound (x - 1)

/-- The closure `task` of call `c` on the engine: the first argument is the room left on
the stack, the second the value of `n`.  With no room left the call of `task` throws a
`RangeError`. -/
def Semaphore.jsTask (c : Nat) : Nat → Nat → Semaphore → Completion × Semaphore
  | 0, _, s => (.threw .rangeError, s)
  | _ + 1, 0, s => (.returned, s.settleCall c .fulfilled)
  | d + 1, n + 1, s =>
    if 0 < s._semaphore then
      let s1 := { s with _semaphore := jsDec s._semaphore, trace := s.trace ++ [.dec] }
      if 0 ≤ s1._semaphore then Semaphore.jsTask c d n s1
      else (.returned, s1.suspend c n)
    else (.returned, s.suspend c n)

/-- The method `P(n)` on the engine.  When `task` throws, `P` throws before it has returned
a promise, and the counter stays where the nested calls left it. -/
def Semaphore.jsP (depth n : Nat) (s : Semaphore) : Completion × Semaphore :=
  match Semaphore.jsTask s.calls.length depth n
      { s with calls := s.calls ++ [{ requested := n, state := .pending }] } with
  | (.threw e, t) => (.threw e, { t with calls := s.calls })
  | r => r

/-- One round of the loop of `V` on the engine. -/
def Semaphore.jsSignal (s : Semaphore) : Semaphore :=
  if s._queue.length ≠ 0 then
    match s._queue.getQueue.head? with
    | some w => { s.resolve w with trace := s.trace ++ [.resolve w] }
    | none => s
  else
    { s with _semaphore := jsInc s._semaphore, trace := s.trace ++ [.inc] }

/-- The method `V(n)` on the engine. -/
def Semaphore.jsV : Nat → Semaphore → Semaphore
  | 0, s => s
  | n + 1, s => Semaphore.jsV n s.jsSignal

/-- The reaction `.then(task)` of waiter `w` on the engine.  An error thrown by `task`
inside the reaction rejects the promise of the call. -/
def Semaphore.jsResume (depth w : Nat) (s : Semaphore) : Semaphore :=
  match s.waiters[w]? with
  | some x =>
    if x.state = .fulfilled ∧ x.resumed = false then
      match Semaphore.jsTask x.call depth x.n
          { s with waiters := s.waiters.set w { x with resumed := true } } with
      | (.threw _, t) => t.settleCall x.call .rejected
      | (_, t) => t
    else if x.state = .rejected then s.settleCall x.call .rejected
    else s
  | none => s

/-- The effect of one operation on the engine; an error thrown by a method is left to the
caller and the object stays as the method left it. -/
def Semaphore.jsStep (depth : Nat) (s : Semaphore) : Op → Semaphore
  | .P n => (s.jsP depth n).2
  | .V n => s.jsV n
  | .rejectAll k => (s.rejectAll k).2
  | .resume w => s.jsResume depth w

/-- The effect of a sequence of operations on the engine, first to last. -/
def Semaphore.jsRun (depth : Nat) (s : Semaphore) (ops : List Op) : Semaphore :=
  ops.foldl (Semaphore.jsStep depth) s

/-- Every waiter was created with its `n` below `depth`. -/
def Semaphore.WaitersBelow (depth : Nat) (s : Semaphore) : Prop :=
  ∀ x ∈ s.waiters, x.n < depth

/-! ## Basic facts about the methods -/

theorem Semaphore.settleCall_semaphore (s : Semaphore) (c : Nat) (st : PromiseState) :
    (s.settleCall c st)._semaphore = s._semaphore := by
  unfold Semaphore.settleCall
  split
  · split <;> rfl
  · rfl

theorem Semaphore.settleCall_queue (s : Semaphore) (c : Nat) (st : PromiseState) :
    (s.settleCall c st)._queue = s._queue := by
  unfold Semaphore.settleCall
  split
  · split <;> rfl
  · rfl

theorem Semaphore.settleCall_waiters (s : Semaphore) (c : Nat) (st : PromiseState) :
    (s.settleCall c st).waiters = s.waiters := by
  unfold Semaphore.settleCall
  split
  · split <;> rfl
  · rfl

theorem Semaphore.settleCall_trace (s : Semaphore) (c : Nat) (st : PromiseState) :
    (s.settleCall c st).trace = s.trace := by
  unfold Semaphore.settleCall
  split
  · split <;> rfl
  · rfl

theorem Semaphore.resolve_semaphore (s : Semaphore) (w : Nat) :
    (s.resolve w)._semaphore = s._semaphore := by
  unfold Semaphore.resolve
  split
  · split <;> rfl
  · rfl

theorem Semaphore.resolve_queue (s : Semaphore) (w : Nat) :
    (s.resolve w)._queue = s._queue := by
  unfold Semaphore.resolve
  split
  · split <;> rfl
  · rfl

theorem Semaphore.reject_semaphore (s : Semaphore) (w : Nat) :
    (s.reject w)._semaphore = s._semaphore := by
  unfold Semaphore.reject
  split
  · split <;> rfl
  · rfl

theorem Semaphore.reject_queue (s : Semaphore) (w : Nat) :
    (s.reject w)._queue = s._queue := by
  unfold Semaphore.reject
  split
  · split <;> rfl
  · rfl

/-- With at least `n` permits, `task` takes `n` units from the counter and settles the call
without touching the queue or the waiters. -/
theorem Semaphore.task_enough (c : Nat) (n : Nat) (s : Semaphore)
    (h : (n : Int) ≤ s._semaphore) :
    Semaphore.task c n s =
      ({ s with _semaphore := s._semaphore - n,
                trace := s.trace ++ List.replicate n Event.dec }).settleCall c .fulfilled := by
  induction n generalizing s with
  | zero => simp [Semaphore.task]
  | succ n ih =>
    have h1 : 0 < s._semaphore := by push_cast at h; omega
    have h2 : (0 : Int) ≤ s._semaphore - 1 := by omega
    simp only [Semaphore.task, h1, h2, if_true]
    rw [ih]
    · congr 2
      · push_cast; ring
      · simp [List.replicate_succ]
    · show (n : Int) ≤ s._semaphore - 1
      push_cast at h; omega

/-- With no waiter in the queue, `V(n)` adds `n` to the counter and leaves the queue, the
waiters and the calls as they are. -/
theorem Semaphore.V_empty (n : Nat) (s : Semaphore) (h : s._queue.tasks = []) :
    (s.V n)._semaphore = s._semaphore + n ∧ (s.V n)._queue = s._queue ∧
    (s.V n).waiters = s.waiters ∧ (s.V n).calls = s.calls := by
  induction n generalizing s with
  | zero => simp [Semaphore.V]
  | succ n ih =>
    have hlen : ¬ s._queue.length ≠ 0 := by simp [Fastq.length, h]
    have hsig : s.signal =
        { s with _semaphore := s._semaphore + 1, trace := s.trace ++ [.inc] } := by
      unfold Semaphore.signal
      rw [if_neg hlen]
    have := ih s.signal (by rw [hsig]; exact h)
    simp only [Semaphore.V]
    rw [this.1, this.2.1, this.2.2.1, this.2.2.2, hsig]
    refine ⟨?_, rfl, rfl, rfl⟩
    push_cast
    ring

theorem Semaphore.reject_calls (s : Semaphore) (w : Nat) : (s.reject w).calls = s.calls := by
  unfold Semaphore.reject
  split
  · split <;> rfl
  · rfl

/-- The rounds of `rejectAll` leave the promises of the calls as they are. -/
theorem Semaphore.rejectAll_calls (fuel : Nat) (s : Semaphore) :
    (s.rejectAll fuel).2.calls = s.calls := by
  induction fuel generalizing s with
  | zero => rfl
  | succ fuel ih =>
    simp only [Semaphore.rejectAll, Fastq.lengthIsTruthy, if_true]
    split
    · rfl
    · rw [ih]
      exact Semaphore.reject_calls s _

/-- While the head of the queue exists, `rejectAll` stays in its loop for any number of
rounds, and the queue keeps its contents. -/
theorem Semaphore.rejectAll_loops (fuel : Nat) (s : Semaphore) (w : Nat)
    (h : s._queue.getQueue.head? = some w) :
    (s.rejectAll fuel).1 = .unfinished ∧ (s.rejectAll fuel).2._queue = s._queue := by
  induction fuel generalizing s with
  | zero => simp [Semaphore.rejectAll]
  | succ fuel ih =>
    have key := ih { s.reject w with trace := s.trace ++ [.reject w] }
      (by simpa [Semaphore.reject_queue] using h)
    simp only [Semaphore.rejectAll, Fastq.lengthIsTruthy, if_true, h]
    refine ⟨key.1, ?_⟩
    rw [key.2]
    exact Semaphore.reject_queue s w

/-! ## The counter and the queue along sequences of operations -/

theorem Semaphore.CounterInv_of_eq {s t : Semaphore} (h : s.CounterInv)
    (h1 : t._semaphore = s._semaphore) (h2 : t._queue = s._queue) : t.CounterInv := by
  unfold Semaphore.CounterInv at *
  rw [h1, h2]
  exact h

theorem Semaphore.fresh_counterInv (k : Nat) : (Semaphore.fresh k).CounterInv := by
  constructor
  · show (0 : Int) ≤ (k : Int)
    omega
  · intro h
    exact absurd rfl h

theorem Semaphore.suspend_counterInv (s : Semaphore) (c n : Nat) (h : s.CounterInv)
    (h0 : s._semaphore ≤ 0) : (s.suspend c n).CounterInv := by
  have hz : s._semaphore = 0 := le_antisymm h0 h.1
  constructor
  · exact h.1
  · intro _
    exact hz

theorem Semaphore.task_counterInv (c n : Nat) (s : Semaphore) (h : s.CounterInv) :
    (Semaphore.task c n s).CounterInv := by
  induction n generalizing s with
  | zero =>
    exact Semaphore.CounterInv_of_eq h (Semaphore.settleCall_semaphore _ _ _)
      (Semaphore.settleCall_queue _ _ _)
  | succ n ih =>
    unfold Semaphore.task
    by_cases hpos : 0 < s._semaphore
    · have hnn : (0 : Int) ≤ s._semaphore - 1 := by omega
      simp only [hpos, hnn, if_true]
      apply ih
      constructor
      · exact hnn
      · intro hq
        have := h.2 hq
        omega
    · simp only [hpos, if_false]
      exact Semaphore.suspend_counterInv s c n h (by omega)

theorem Semaphore.P_counterInv (n : Nat) (s : Semaphore) (h : s.CounterInv) :
    (s.P n).CounterInv :=
  Semaphore.task_counterInv _ _ _ (Semaphore.CounterInv_of_eq h rfl rfl)

theorem Semaphore.signal_queue (s : Semaphore) : s.signal._queue = s._queue := by
  unfold Semaphore.signal
  split
  · split
    · exact Semaphore.resolve_queue _ _
    · rfl
  · rfl

theorem Semaphore.signal_semaphore (s : Semaphore) :
    s.signal._semaphore = if s._queue.length ≠ 0 then s._semaphore else s._semaphore + 1 := by
  unfold Semaphore.signal
  split
  · split
    · exact Semaphore.resolve_semaphore _ _
    · rfl
  · rfl

theorem Semaphore.signal_counterInv (s : Semaphore) (h : s.CounterInv) :
    s.signal.CounterInv := by
  unfold Semaphore.CounterInv
  rw [Semaphore.signal_queue, Semaphore.signal_semaphore]
  split
  · exact h
  · next hq =>
    constructor
    · have := h.1
      omega
    · intro hq2
      exact absurd hq2 hq

theorem Semaphore.V_counterInv (n : Nat) (s : Semaphore) (h : s.CounterInv) :
    (s.V n).CounterInv := by
  induction n generalizing s with
  | zero => exact h
  | succ n ih => exact ih _ (Semaphore.signal_counterInv s h)

theorem Semaphore.rejectAll_counterInv (fuel : Nat) (s : Semaphore) (h : s.CounterInv) :
    (s.rejectAll fuel).2.CounterInv := by
  induction fuel generalizing s with
  | zero => exact h
  | succ fuel ih =>
    simp only [Semaphore.rejectAll, Fastq.lengthIsTruthy, if_true]
    split
    · exact h
    · exact ih _ (Semaphore.CounterInv_of_eq h (Semaphore.reject_semaphore _ _)
        (Semaphore.reject_queue _ _))

theorem Semaphore.resume_counterInv (w : Nat) (s : Semaphore) (h : s.CounterInv) :
    (s.resume w).CounterInv := by
  unfold Semaphore.resume
  split
  · split
    · exact Semaphore.task_counterInv _ _ _ (Semaphore.CounterInv_of_eq h rfl rfl)
    · split
      · exact Semaphore.CounterInv_of_eq h (Semaphore.settleCall_semaphore _ _ _)
          (Semaphore.settleCall_queue _ _ _)
      · exact h
  · exact h

theorem Semaphore.step_counterInv (op : Op) (s : Semaphore) (h : s.CounterInv) :
    (s.step op).CounterInv := by
  cases op with
  | P n => exact Semaphore.P_counterInv n s h
  | V n => exact Semaphore.V_counterInv n s h
  | rejectAll k => exact Semaphore.rejectAll_counterInv k s h
  | resume w => exact Semaphore.resume_counterInv w s h

theorem Semaphore.run_counterInv (ops : List Op) (s : Semaphore) (h : s.CounterInv) :
    (s.run ops).CounterInv := by
  induction ops generalizing s with
  | nil => exact h
  | cons op ops ih => exact ih _ (Semaphore.step_counterInv op s h)

/-- Whenever `task` changes the queue, the counter is not positive at the end. -/
theorem Semaphore.task_queue_or_exhausted (c n : Nat) (s : Semaphore) :
    (Semaphore.task c n s)._queue = s._queue ∨ (Semaphore.task c n s)._semaphore ≤ 0 := by
  induction n generalizing s with
  | zero => exact Or.inl (Semaphore.settleCall_queue _ _ _)
  | succ n ih =>
    unfold Semaphore.task
    by_cases hpos : 0 < s._semaphore
    · have hnn : (0 : Int) ≤ s._semaphore - 1 := by omega
      simp only [hpos, hnn, if_true]
      exact ih _
    · simp only [hpos, if_false]
      right
      show s._semaphore ≤ 0
      omega

/-! ## Before and after the first suspension -/

theorem Semaphore.stuck_of_eq {c0 : Nat} {s t : Semaphore} (h : s.Stuck c0)
    (hq : t._queue = s._queue) (hw : t.waiters = s.waiters) (hc : t.calls = s.calls) :
    t.Stuck c0 := by
  refine ⟨?_, ?_, ?_, ?_, ?_, ?_⟩
  · rw [hq]; exact h.busy
  · rw [hw]; exact h.first
  · rw [hc]; exact h.call
  · rw [hq]; exact h.notQueued
  · rw [hw]; exact h.others
  · rw [hw, hc]; exact h.bound

theorem Semaphore.stuck_settleCall {c0 : Nat} {s : Semaphore} (h : s.Stuck c0) (c : Nat)
    (st : PromiseState) (hc : c ≠ c0) : (s.settleCall c st).Stuck c0 := by
  unfold Semaphore.settleCall
  split
  · split
    · refine ⟨h.busy, h.first, ?_, h.notQueued, h.others, ?_⟩
      · obtain ⟨cl, h1, h2⟩ := h.call
        exact ⟨cl, by simp [List.getElem?_set_ne hc, h1], h2⟩
      · intro y hy
        simpa using h.bound y hy
    · exact h
  · exact h

theorem Semaphore.stuck_suspend {c0 : Nat} {s : Semaphore} (h : s.Stuck c0) (c n : Nat)
    (hc : c ≠ c0) (hlt : c < s.calls.length) : (s.suspend c n).Stuck c0 := by
  obtain ⟨x, hx, hxc, hxs⟩ := h.first
  have hlen : 0 < s.waiters.length := by
    rcases List.getElem?_eq_some_iff.1 hx with ⟨hl, -⟩
    exact hl
  refine ⟨?_, ?_, h.call, ?_, ?_, ?_⟩
  · simp only [Semaphore.suspend, Fastq.push, if_pos h.busy]
    exact h.busy
  · refine ⟨x, ?_, hxc, hxs⟩
    simp only [Semaphore.suspend]
    rw [List.getElem?_append_left hlen]
    exact hx
  · simp only [Semaphore.suspend, Fastq.push, if_pos h.busy, List.mem_append,
      List.mem_singleton]
    rintro (h0 | h0)
    · exact h.notQueued h0
    · omega
  · intro i y hi hy
    simp only [Semaphore.suspend] at hy
    by_cases hil : i < s.waiters.length
    · rw [List.getElem?_append_left hil] at hy
      exact h.others i y hi hy
    · rw [List.getElem?_append_right (by omega)] at hy
      have hmem := List.getElem?_mem hy
      simp only [List.mem_singleton] at hmem
      rw [hmem]
      exact hc
  · intro y hy
    simp only [Semaphore.suspend, List.mem_append, List.mem_singleton] at hy
    rcases hy with hy | hy
    · exact h.bound y hy
    · rw [hy]
      exact hlt

theorem Semaphore.stuck_task {c0 : Nat} (c n : Nat) (s : Semaphore) (h : s.Stuck c0)
    (hc : c ≠ c0) (hlt : c < s.calls.length) : (Semaphore.task c n s).Stuck c0 := by
  induction n generalizing s with
  | zero => exact Semaphore.stuck_settleCall h c _ hc
  | succ n ih =>
    unfold Semaphore.task
    split
    · show Semaphore.Stuck c0 (if _ then _ else _)
      split
      · exact ih _ (Semaphore.stuck_of_eq h rfl rfl rfl) hlt
      · refine Semaphore.stuck_suspend ?_ c n hc hlt
        exact Semaphore.stuck_of_eq h rfl rfl rfl
    · exact Semaphore.stuck_suspend h c n hc hlt

/-- Changing the promise state or the flag of a waiter other than waiter `0`. -/
theorem Semaphore.stuck_setWaiter {c0 : Nat} {s : Semaphore} (h : s.Stuck c0) (w : Nat)
    (x y : Waiter) (hw : w ≠ 0) (hx : s.waiters[w]? = some x) (hy : y.call = x.call) :
    Semaphore.Stuck c0 { s with waiters := s.waiters.set w y } := by
  refine ⟨h.busy, ?_, h.call, h.notQueued, ?_, ?_⟩
  · obtain ⟨x0, h1, h2, h3⟩ := h.first
    exact ⟨x0, by simp [List.getElem?_set_ne hw, h1], h2, h3⟩
  · intro i z hi hz
    simp only [List.getElem?_set] at hz
    split at hz
    · split at hz
      · injection hz with hz
        subst hz
        rw [hy]
        exact h.others w x (Nat.pos_of_ne_zero hw) hx
      · exact absurd hz (by simp)
    · exact h.others i z hi hz
  · intro z hz
    rcases List.mem_or_eq_of_mem_set hz with hz | hz
    · exact h.bound z hz
    · rw [hz, hy]
      exact h.bound x (List.getElem?_mem hx)

theorem Semaphore.stuck_resolve {c0 : Nat} {s : Semaphore} (h : s.Stuck c0) (w : Nat)
    (hw : w ≠ 0) : (s.resolve w).Stuck c0 := by
  unfold Semaphore.resolve
  split
  · next x hx =>
    split
    · exact Semaphore.stuck_setWaiter h w x _ hw hx rfl
    · exact h
  · exact h

theorem Semaphore.stuck_reject {c0 : Nat} {s : Semaphore} (h : s.Stuck c0) (w : Nat)
    (hw : w ≠ 0) : (s.reject w).Stuck c0 := by
  unfold Semaphore.reject
  split
  · next x hx =>
    split
    · exact Semaphore.stuck_setWaiter h w x { x with state := .rejected } hw hx rfl
    · exact h
  · exact h

theorem Semaphore.stuck_head_ne_zero {c0 : Nat} {s : Semaphore} (h : s.Stuck c0) (w : Nat)
    (hw : s._queue.getQueue.head? = some w) : w ≠ 0 := by
  intro h0
  subst h0
  exact h.notQueued (List.mem_of_mem_head? hw)

theorem Semaphore.stuck_signal {c0 : Nat} {s : Semaphore} (h : s.Stuck c0) :
    s.signal.Stuck c0 := by
  unfold Semaphore.signal
  split
  · split
    · next w hw =>
      have hw0 := Semaphore.stuck_head_ne_zero h w hw
      exact Semaphore.stuck_of_eq (Semaphore.stuck_resolve h w hw0) rfl rfl rfl
    · exact h
  · exact Semaphore.stuck_of_eq h rfl rfl rfl

theorem Semaphore.stuck_V {c0 : Nat} (n : Nat) (s : Semaphore) (h : s.Stuck c0) :
    (s.V n).Stuck c0 := by
  induction n generalizing s with
  | zero => exact h
  | succ n ih => exact ih _ (Semaphore.stuck_signal h)

theorem Semaphore.stuck_rejectAll {c0 : Nat} (fuel : Nat) (s : Semaphore) (h : s.Stuck c0) :
    (s.rejectAll fuel).2.Stuck c0 := by
  induction fuel generalizing s with
  | zero => exact h
  | succ fuel ih =>
    simp only [Semaphore.rejectAll, Fastq.lengthIsTruthy, if_true]
    split
    · exact h
    · next w hw =>
      have hw0 := Semaphore.stuck_head_ne_zero h w hw
      exact ih _ (Semaphore.stuck_of_eq (Semaphore.stuck_reject h w hw0) rfl rfl rfl)

theorem Semaphore.stuck_resume {c0 : Nat} (w : Nat) (s : Semaphore) (h : s.Stuck c0) :
    (s.resume w).Stuck c0 := by
  unfold Semaphore.resume
  split
  · next x hx =>
    split
    · next hf =>
      have hw : w ≠ 0 := by
        intro h0
        subst h0
        obtain ⟨x0, h1, -, h3⟩ := h.first
        rw [hx] at h1
        injection h1 with h1
        subst h1
        rw [hf.1] at h3
        exact absurd h3 (by decide)
      exact Semaphore.stuck_task _ _ _ (Semaphore.stuck_setWaiter h w x _ hw hx rfl)
        (h.others w x (Nat.pos_of_ne_zero hw) hx) (h.bound x (List.getElem?_mem hx))
    · split
      · next hr =>
        have hw : w ≠ 0 := by
          intro h0
          subst h0
          obtain ⟨x0, h1, -, h3⟩ := h.first
          rw [hx] at h1
          injection h1 with h1
          subst h1
          rw [hr] at h3
          exact absurd h3 (by decide)
        exact Semaphore.stuck_settleCall h _ _ (h.others w x (Nat.pos_of_ne_zero hw) hx)
      · exact h
  · exact h

theorem Semaphore.stuck_P {c0 : Nat} (n : Nat) (s : Semaphore) (h : s.Stuck c0) :
    (s.P n).Stuck c0 := by
  obtain ⟨cl, hcl, hst⟩ := h.call
  have hlt : c0 < s.calls.length := by
    rcases List.getElem?_eq_some_iff.1 hcl with ⟨hl, -⟩
    exact hl
  refine Semaphore.stuck_task _ _ _
    ⟨h.busy, h.first, ⟨cl, ?_, hst⟩, h.notQueued, h.others, ?_⟩
    (by omega) (by simp)
  · show (s.calls ++ _)[c0]? = some cl
    rw [List.getElem?_append_left hlt]
    exact hcl
  · intro y hy
    have := h.bound y hy
    simp only [List.length_append, List.length_singleton]
    omega

theorem Semaphore.stuck_step {c0 : Nat} (op : Op) (s : Semaphore) (h : s.Stuck c0) :
    (s.step op).Stuck c0 := by
  cases op with
  | P n => exact Semaphore.stuck_P n s h
  | V n => exact Semaphore.stuck_V n s h
  | rejectAll k => exact Semaphore.stuck_rejectAll k s h
  | resume w => exact Semaphore.stuck_resume w s h

theorem Semaphore.stuck_run {c0 : Nat} (ops : List Op) (s : Semaphore) (h : s.Stuck c0) :
    (s.run ops).Stuck c0 := by
  induction ops generalizing s with
  | nil => exact h
  | cons op ops ih => exact ih _ (Semaphore.stuck_step op s h)

/-- With at least `n` permits, `P(n)` is fulfilled at once and only the counter moves. -/
theorem Semaphore.P_enough (s : Semaphore) (n : Nat) (h : (n : Int) ≤ s._semaphore) :
    (s.P n)._semaphore = s._semaphore - n ∧
    (s.P n)._queue = s._queue ∧
    (s.P n).waiters = s.waiters ∧
    (s.P n).calls = s.calls ++ [⟨n, .fulfilled⟩] ∧
    (s.P n).trace = s.trace ++ List.replicate n Event.dec := by
  unfold Semaphore.P
  rw [Semaphore.task_enough s.calls.length n
    { s with calls := s.calls ++ [{ requested := n, state := .pending }] } h]
  refine ⟨by rw [Semaphore.settleCall_semaphore], by rw [Semaphore.settleCall_queue],
    by rw [Semaphore.settleCall_waiters], ?_, by rw [Semaphore.settleCall_trace]⟩
  simp [Semaphore.settleCall]

theorem Semaphore.fresh_quiet (C : Nat) : (Semaphore.fresh C).Quiet C 0 := by
  refine ⟨rfl, rfl, rfl, rfl, ?_, ?_, ?_⟩
  · intro c hc
    exact absurd hc (List.not_mem_nil c)
  · show (0 : Int) ≤ (C : Int)
    omega
  · show (C : Int) = (C : Int) - ((0 : Nat) : Int) + ((0 : Nat) : Int)
    simp

/-- The first push of a semaphore goes to the worker: the waiter is outside the queue. -/
theorem Semaphore.suspend_first (c n : Nat) (s : Semaphore)
    (hconc : s._queue.concurrency = 1) (hidle : s._queue.running = 0)
    (hempty : s._queue.tasks = []) (hnone : s.waiters = [])
    (hcall : ∃ cl, s.calls[c]? = some cl ∧ cl.state = .pending) :
    (s.suspend c n).Stuck c := by
  obtain ⟨cl, hcl, hst⟩ := hcall
  have hclt : c < s.calls.length := by
    rcases List.getElem?_eq_some_iff.1 hcl with ⟨hl, -⟩
    exact hl
  refine ⟨?_, ?_, ⟨cl, hcl, hst⟩, ?_, ?_, ?_⟩
  · simp [Semaphore.suspend, Fastq.push, hconc, hidle]
  · exact ⟨{ call := c, n := n, state := .pending, resumed := false },
      by simp [Semaphore.suspend, hnone], rfl, rfl⟩
  · simp [Semaphore.suspend, Fastq.push, hconc, hidle, hempty]
  · intro i y hi hy
    simp only [Semaphore.suspend, hnone, List.nil_append] at hy
    have hlen := (List.getElem?_eq_some_iff.1 hy).1
    simp only [List.length_singleton] at hlen
    omega
  · intro y hy
    simp only [Semaphore.suspend, hnone, List.nil_append, List.mem_singleton] at hy
    rw [hy]
    exact hclt

/-- With fewer than `n` permits and nothing pushed so far, `task` ends in the first push. -/
theorem Semaphore.task_suspends (c n : Nat) (s : Semaphore)
    (hconc : s._queue.concurrency = 1) (hidle : s._queue.running = 0)
    (hempty : s._queue.tasks = []) (hnone : s.waiters = [])
    (hcall : ∃ cl, s.calls[c]? = some cl ∧ cl.state = .pending)
    (hnn : 0 ≤ s._semaphore) (hlt : s._semaphore < n) :
    (Semaphore.task c n s).Stuck c := by
  induction n generalizing s with
  | zero =>
    exfalso
    have : s._semaphore < 0 := by simpa using hlt
    omega
  | succ n ih =>
    unfold Semaphore.task
    split
    · next hpos =>
      show Semaphore.Stuck c (if _ then _ else _)
      split
      · next hge =>
        refine ih _ hconc hidle hempty hnone hcall hge ?_
        show s._semaphore - 1 < (n : Int)
        push_cast at hlt
        omega
      · next hneg =>
        exfalso
        apply hneg
        show (0 : Int) ≤ s._semaphore - 1
        omega
    · exact Semaphore.suspend_first c n s hconc hidle hempty hnone hcall

theorem Semaphore.quiet_P {C R : Nat} {s : Semaphore} (h : s.Quiet C R) (n : Nat) :
    (s.P n).Quiet C R ∨ (s.P n).Stuck s.calls.length := by
  by_cases hn : (n : Int) ≤ s._semaphore
  · left
    obtain ⟨h1, h2, h3, h4, -⟩ := Semaphore.P_enough s n hn
    refine ⟨?_, ?_, ?_, ?_, ?_, ?_, ?_⟩
    · rw [h2]; exact h.conc
    · rw [h2]; exact h.idle
    · rw [h2]; exact h.empty
    · rw [h3]; exact h.noWaiter
    · intro c hc
      rw [h4, List.mem_append, List.mem_singleton] at hc
      rcases hc with hc | hc
      · exact h.done c hc
      · rw [hc]
    · rw [h1]; omega
    · rw [h1, h4, h.count]
      simp only [List.map_append, List.map_cons, List.map_nil, List.sum_append, List.sum_cons,
        List.sum_nil]
      push_cast
      ring
  · right
    exact Semaphore.task_suspends _ _ _ h.conc h.idle h.empty h.noWaiter
      ⟨_, List.getElem?_concat_length _ _, rfl⟩ h.nonneg
      (show s._semaphore < (n : Int) by omega)

theorem Semaphore.quiet_signal {C R : Nat} {s : Semaphore} (h : s.Quiet C R) :
    s.signal.Quiet C (R + 1) := by
  have hlen : ¬ s._queue.length ≠ 0 := by
    simp [Fastq.length, h.empty]
  unfold Semaphore.signal
  rw [if_neg hlen]
  refine ⟨h.conc, h.idle, h.empty, h.noWaiter, h.done, ?_, ?_⟩
  · show (0 : Int) ≤ s._semaphore + 1
    have := h.nonneg
    omega
  · show s._semaphore + 1 = _
    rw [h.count]
    push_cast
    ring

theorem Semaphore.quiet_V {C R : Nat} (n : Nat) (s : Semaphore) (h : s.Quiet C R) :
    (s.V n).Quiet C (R + n) := by
  induction n generalizing s R with
  | zero => exact h
  | succ n ih =>
    have := ih s.signal (Semaphore.quiet_signal h)
    rw [show R + (n + 1) = R + 1 + n by omega]
    exact this

theorem Semaphore.quiet_rejectAll {C R : Nat} (fuel : Nat) (s : Semaphore)
    (h : s.Quiet C R) : (s.rejectAll fuel).2 = s := by
  cases fuel with
  | zero => rfl
  | succ fuel =>
    have h0 : s._queue.getQueue.head? = none := by
      simp [Fastq.getQueue, h.empty]
    simp only [Semaphore.rejectAll, Fastq.lengthIsTruthy, if_true, h0]

theorem Semaphore.quiet_resume {C R : Nat} (w : Nat) (s : Semaphore) (h : s.Quiet C R) :
    s.resume w = s := by
  simp [Semaphore.resume, h.noWaiter]

theorem Semaphore.phase_step {C R : Nat} (op : Op) (s : Semaphore) (h : s.Phase C R) :
    (s.step op).Phase C (R + op.released) := by
  rcases h with h | ⟨c0, h⟩
  · cases op with
    | P n =>
      rcases Semaphore.quiet_P h n with h1 | h1
      · exact Or.inl h1
      · exact Or.inr ⟨_, h1⟩
    | V n => exact Or.inl (Semaphore.quiet_V n s h)
    | rejectAll k =>
      left
      show Semaphore.Quiet C (R + 0) (s.rejectAll k).2
      rw [Semaphore.quiet_rejectAll k s h]
      exact h
    | resume w =>
      left
      show Semaphore.Quiet C (R + 0) (s.resume w)
      rw [Semaphore.quiet_resume w s h]
      exact h
  · exact Or.inr ⟨c0, Semaphore.stuck_step op s h⟩

theorem Semaphore.phase_run {C R : Nat} (ops : List Op) (s : Semaphore) (h : s.Phase C R) :
    (s.run ops).Phase C (R + releasedUnits ops) := by
  induction ops generalizing s R with
  | nil => exact h
  | cons op ops ih =>
    have := ih (s.step op) (Semaphore.phase_step op s h)
    have e : R + releasedUnits (op :: ops) = R + op.released + releasedUnits ops := by
      simp [releasedUnits, Nat.add_assoc]
    rw [e]
    exact this

/-- When every call is fulfilled, the completed units are the units of all calls. -/
theorem Semaphore.completedUnits_of_done (s : Semaphore)
    (h : ∀ c ∈ s.calls, c.state = .fulfilled) :
    s.completedUnits = (s.calls.map Call.requested).sum := by
  unfold Semaphore.completedUnits
  rw [List.filter_eq_self.2]
  intro c hc
  simp [h c hc]

/-! ## The claims -/

/-- C1: the constructor throws exactly when `capacity` is not a non-negative integer;
for a non-negative integer `k` it succeeds with `_semaphore = k`, an empty wait queue and
no waiter; capacity `0` is accepted. -/
theorem C1_constructor_validates_capacity (v : JSValue) (k : Nat) :
    ((∃ e, Semaphore.new v = .error e) ↔ ¬ ∃ j : Nat, v = .int j) ∧
    Semaphore.new (.int k) = .ok (Semaphore.fresh k) ∧
    (Semaphore.fresh k)._semaphore = k ∧
    (Semaphore.fresh k)._queue.getQueue = [] ∧
    (Semaphore.fresh k)._queue.length = 0 ∧
    (Semaphore.fresh k).waiters = [] ∧
    Semaphore.new (.int 0) = .ok (Semaphore.fresh 0) := by
  refine ⟨?_, ?_, rfl, rfl, rfl, rfl, ?_⟩
  · cases v with
    | int i =>
      by_cases hi : i < 0
      · simp only [Semaphore.new, JSValue.isInteger, hi]
        constructor
        · rintro - ⟨j, hj⟩
          injection hj with hj
          omega
        · intro _
          exact ⟨_, rfl⟩
      · simp only [Semaphore.new, JSValue.isInteger, hi]
        constructor
        · rintro ⟨e, he⟩
          simp at he
        · intro hn
          exact absurd ⟨i.toNat, by rw [Int.toNat_of_nonneg (by omega)]⟩ hn
    | nonIntegerNumber =>
      simp only [Semaphore.new, JSValue.isInteger]
      exact ⟨fun _ => by simp, fun _ => ⟨_, rfl⟩⟩
    | nonNumber =>
      simp only [Semaphore.new, JSValue.isInteger]
      exact ⟨fun _ => by simp, fun _ => ⟨_, rfl⟩⟩
  · simp [Semaphore.new, JSValue.isInteger]
  · simp [Semaphore.new, JSValue.isInteger]

/-- C2 (the code at the failing input): on `new Semaphore(0)`, `P(1)` suspends but its
waiter is not in the queue, so `V(1)` finds the queue empty, raises `_semaphore` to `1`
and leaves the call pending; likewise `V(n)` raises it to `n` for every `n`, with the
waiter and the call still pending.  And with a waiter in the queue (`P(1)` twice), `V(1)`
fulfils the head without removing it, so a second `V(1)` meets the same head again. -/
theorem C2_release_misses_pending_acquire (n : Nat) :
    Semaphore.new (.int 0) = .ok (Semaphore.fresh 0) ∧
    ((Semaphore.fresh 0).run [.P 1]).calls = [⟨1, .pending⟩] ∧
    ((Semaphore.fresh 0).run [.P 1])._queue.length = 0 ∧
    ((Semaphore.fresh 0).run [.P 1, .V 1])._semaphore = 1 ∧
    ((Semaphore.fresh 0).run [.P 1, .V 1]).calls = [⟨1, .pending⟩] ∧
    ((Semaphore.fresh 0).run [.P 1, .V 1]).waiters = [⟨0, 0, .pending, false⟩] ∧
    ((Semaphore.fresh 0).run [.P 1, .V n])._semaphore = n ∧
    ((Semaphore.fresh 0).run [.P 1, .V n]).calls = [⟨1, .pending⟩] ∧
    ((Semaphore.fresh 0).run [.P 1, .V n]).waiters = [⟨0, 0, .pending, false⟩] ∧
    ((Semaphore.fresh 0).run [.P 1, .P 1])._queue.getQueue = [1] ∧
    ((Semaphore.fresh 0).run [.P 1, .P 1, .V 1])._queue.getQueue = [1] ∧
    ((Semaphore.fresh 0).run [.P 1, .P 1, .V 1, .V 1])._queue.getQueue = [1] := by
  have hV := Semaphore.V_empty n ((Semaphore.fresh 0).run [.P 1]) (by decide)
  refine ⟨by simp [Semaphore.new, JSValue.isInteger], by decide, by decide, by decide,
    by decide, by decide, ?_, ?_, ?_, by decide, by decide, by decide⟩
  · show (((Semaphore.fresh 0).run [.P 1]).V n)._semaphore = n
    rw [hV.1]
    show (0 : Int) + n = n
    simp
  · show (((Semaphore.fresh 0).run [.P 1]).V n).calls = _
    rw [hV.2.2.2]
    decide
  · show (((Semaphore.fresh 0).run [.P 1]).V n).waiters = _
    rw [hV.2.2.1]
    decide

/-- C4 (the code at the failing input): on `new Semaphore(0)`, where `_semaphore` is `0`,
`P(1)` creates a waiter and pushes it, but the queue is as long as before (`0`) and holds no
waiter: the push went to the worker.  The call is pending, neither `V(1)` nor a round of
`rejectAll()` settles its waiter, and the call is still pending after any sequence `ops` of
further operations. -/
theorem C4_first_waiter_not_queued (ops : List Op) :
    (Semaphore.fresh 0)._semaphore = 0 ∧
    (Semaphore.fresh 0)._queue.length = 0 ∧
    ((Semaphore.fresh 0).P 1)._queue.length = 0 ∧
    ((Semaphore.fresh 0).P 1)._queue.getQueue = [] ∧
    ((Semaphore.fresh 0).P 1).waiters = [⟨0, 0, .pending, false⟩] ∧
    ((Semaphore.fresh 0).P 1).trace = [.push 0] ∧
    ((Semaphore.fresh 0).P 1).calls = [⟨1, .pending⟩] ∧
    (((Semaphore.fresh 0).P 1).V 1).waiters = [⟨0, 0, .pending, false⟩] ∧
    (((Semaphore.fresh 0).P 1).rejectAll 1).2.waiters = [⟨0, 0, .pending, false⟩] ∧
    (∃ cl, ((Semaphore.fresh 0).run (.P 1 :: ops)).calls[0]? = some cl ∧
      cl.state = .pending) := by
  refine ⟨by decide, by decide, by decide, by decide, by decide, by decide, by decide,
    by decide, by decide, ?_⟩
  have hstuck : ((Semaphore.fresh 0).P 1).Stuck 0 :=
    Semaphore.task_suspends 0 1 _ rfl rfl rfl rfl ⟨_, rfl, rfl⟩ (by decide) (by decide)
  exact (Semaphore.stuck_run ops _ hstuck).call

/-- C5 (the code at the failing input): `rejectAll()` returns in no state and after no
number of rounds.  With two pending `P(1)` on `new Semaphore(0)` the queue holds one waiter;
`rejectAll()` rejects its promise and then stays in its loop for ever with the queue still
holding it, and the promises of both calls are still pending, since the reaction that
passes the rejection on cannot run while the loop does; with the single pending `P(1)` of
the spec's scenario the queue is empty, `rejectAll()` throws a `TypeError` and the call
stays pending. -/
theorem C5_rejectAll_never_returns (fuel : Nat) (s : Semaphore) :
    (s.rejectAll fuel).1 ≠ .returned ∧
    (((Semaphore.fresh 0).run [.P 1, .P 1]).rejectAll fuel).1 = .unfinished ∧
    (((Semaphore.fresh 0).run [.P 1, .P 1]).rejectAll fuel).2._queue.getQueue = [1] ∧
    (((Semaphore.fresh 0).run [.P 1, .P 1]).rejectAll 1).2.waiters =
      [⟨0, 0, .pending, false⟩, ⟨1, 0, .rejected, false⟩] ∧
    (((Semaphore.fresh 0).run [.P 1, .P 1]).rejectAll fuel).2.calls =
      [⟨1, .pending⟩, ⟨1, .pending⟩] ∧
    ((Semaphore.fresh 0).run [.P 1]).rejectAll (fuel + 1) =
      (.threw .typeError, (Semaphore.fresh 0).run [.P 1]) ∧
    ((Semaphore.fresh 0).run [.P 1]).calls = [⟨1, .pending⟩] := by
  have hnever : (s.rejectAll fuel).1 ≠ .returned := by
    induction fuel generalizing s with
    | zero => simp [Semaphore.rejectAll]
    | succ fuel ih =>
      simp only [Semaphore.rejectAll, Fastq.lengthIsTruthy, if_true]
      cases hq : s._queue.getQueue.head? with
      | none => simp
      | some w => exact ih _
  have hloop := Semaphore.rejectAll_loops fuel ((Semaphore.fresh 0).run [.P 1, .P 1]) 1
    (by decide)
  refine ⟨hnever, hloop.1, ?_, by decide, ?_, ?_, by decide⟩
  · rw [hloop.2]
    decide
  · rw [Semaphore.rejectAll_calls]
    decide
  · have h0 : ((Semaphore.fresh 0).run [.P 1])._queue.getQueue.head? = none := by decide
    simp only [Semaphore.rejectAll, Fastq.lengthIsTruthy, if_true, h0]

/-- C6 (the code at the failing input): on a semaphore whose queue is empty, here a new
one of any capacity `k`, `rejectAll()` throws a `TypeError` in the first round of its loop
(the state is left as it was). -/
theorem C6_rejectAll_throws_on_empty_queue (fuel k : Nat) :
    (Semaphore.fresh k)._queue.getQueue = [] ∧
    (Semaphore.fresh k).rejectAll (fuel + 1) = (.threw .typeError, Semaphore.fresh k) := by
  constructor
  · rfl
  · simp [Semaphore.rejectAll, Fastq.lengthIsTruthy, Semaphore.fresh, queue, Fastq.getQueue]

/-- C7: after any sequence of `P(n)`, `V(n)`, `rejectAll()` (observed after any number of
rounds of its loop) and reactions of granted waiters in any order, on a semaphore built with
a non-negative integer capacity, `_semaphore` is at least `0`. -/
theorem C7_permits_never_negative (k : Nat) (ops : List Op) :
    Semaphore.new (.int k) = .ok (Semaphore.fresh k) ∧
    0 ≤ ((Semaphore.fresh k).run ops)._semaphore := by
  constructor
  · simp [Semaphore.new, JSValue.isInteger]
  · exact (Semaphore.run_counterInv ops _ (Semaphore.fresh_counterInv k)).1

/-- In every state reached from a semaphore built with a non-negative integer capacity,
a non-empty queue implies `_semaphore = 0`; in such a state a round of `V` with a waiter in
the queue leaves `_semaphore` as it is, and a `P(n)` that changes the queue ends with
`_semaphore = 0`. -/
theorem Semaphore.linked_only_at_zero (k : Nat) (ops : List Op) (n : Nat) :
    (((Semaphore.fresh k).run ops)._queue.length ≠ 0 →
      ((Semaphore.fresh k).run ops)._semaphore = 0) ∧
    (((Semaphore.fresh k).run ops)._queue.length ≠ 0 →
      ((Semaphore.fresh k).run ops).signal._semaphore =
        ((Semaphore.fresh k).run ops)._semaphore) ∧
    ((((Semaphore.fresh k).run ops).P n)._queue ≠ ((Semaphore.fresh k).run ops)._queue →
      (((Semaphore.fresh k).run ops).P n)._semaphore = 0) := by
  have hinv := Semaphore.run_counterInv ops _ (Semaphore.fresh_counterInv k)
  refine ⟨hinv.2, ?_, ?_⟩
  · intro hq
    rw [Semaphore.signal_semaphore, if_pos hq]
  · intro hne
    have hP := Semaphore.P_counterInv n _ hinv
    rcases Semaphore.task_queue_or_exhausted ((Semaphore.fresh k).run ops).calls.length n
      { (Semaphore.fresh k).run ops with
        calls := ((Semaphore.fresh k).run ops).calls ++ [{ requested := n, state := .pending }] }
      with h | h
    · exact absurd h hne
    · exact le_antisymm h hP.1

/-- C9 (the code at the failing input): on `new Semaphore(0)`, waiter `0` (first `P(1)`)
is pushed before waiter `1` (second `P(1)`), yet `V(1)` fulfils waiter `1` while waiter `0`
is still pending; and waiter `0` is still pending after any sequence `ops` of further
operations.  With a third `P(1)`, whose waiter `2` is queued behind waiter `1`, `V(2)`
calls `resolve` of waiter `1` twice: the head is not removed and waiter `2` stays
pending. -/
theorem C9_release_order_broken (ops : List Op) :
    ((Semaphore.fresh 0).run [.P 1, .P 1]).trace = [.push 0, .push 1] ∧
    ((Semaphore.fresh 0).run [.P 1, .P 1, .V 1]).waiters =
      [⟨0, 0, .pending, false⟩, ⟨1, 0, .fulfilled, false⟩] ∧
    (∃ x, ((Semaphore.fresh 0).run (.P 1 :: .P 1 :: .V 1 :: ops)).waiters[0]? = some x ∧
      x.call = 0 ∧ x.state = .pending) ∧
    ((Semaphore.fresh 0).run [.P 1, .P 1, .P 1])._queue.getQueue = [1, 2] ∧
    ((Semaphore.fresh 0).run [.P 1, .P 1, .P 1, .V 2]).trace =
      [.push 0, .push 1, .push 2, .resolve 1, .resolve 1] ∧
    ((Semaphore.fresh 0).run [.P 1, .P 1, .P 1, .V 2]).waiters =
      [⟨0, 0, .pending, false⟩, ⟨1, 0, .fulfilled, false⟩, ⟨2, 0, .pending, false⟩] ∧
    ((Semaphore.fresh 0).run [.P 1, .P 1, .P 1, .V 2])._queue.getQueue = [1, 2] := by
  refine ⟨by decide, by decide, ?_, by decide, by decide, by decide, by decide⟩
  have hstuck : ((Semaphore.fresh 0).P 1).Stuck 0 :=
    Semaphore.task_suspends 0 1 _ rfl rfl rfl rfl ⟨_, rfl, rfl⟩ (by decide) (by decide)
  exact (Semaphore.stuck_run (.P 1 :: .V 1 :: ops) _ hstuck).first

/-- C10, as the spec states it, fails: on `new Semaphore(1)`, `P(2)` takes the one permit
and suspends for the second; no acquire has completed (`A = 0`), nothing was released
(`R = 0`), one waiter is pending, and `_semaphore` is `0`, not `1 - 0 + 0`; the engine
gives the same state. -/
theorem C10_conservation_as_stated_fails :
    ((Semaphore.fresh 1).run [.P 2]).calls = [⟨2, .pending⟩] ∧
    ((Semaphore.fresh 1).run [.P 2]).waiters = [⟨0, 0, .pending, false⟩] ∧
    ((Semaphore.fresh 1).run [.P 2])._semaphore = 0 ∧
    ((Semaphore.fresh 1).run [.P 2]).completedUnits = 0 ∧
    releasedUnits [.P 2] = 0 ∧
    (Semaphore.fresh 1).jsRun 10000 [.P 2] = (Semaphore.fresh 1).run [.P 2] ∧
    ¬ Semaphore.ConservationAsStated 1 [.P 2] := by
  refine ⟨by decide, by decide, by decide, by decide, by decide, by decide, ?_⟩
  unfold Semaphore.ConservationAsStated
  decide

/-- When every acquire call issued has fully completed, the counter is the capacity minus
the units of the acquire calls plus the units released. -/
theorem Semaphore.conservation_of_done (C : Nat) (ops : List Op)
    (h : ∀ c ∈ ((Semaphore.fresh C).run ops).calls, c.state = .fulfilled) :
    Semaphore.ConservationAsStated C ops := by
  have hphase := Semaphore.phase_run ops _ (Or.inl (Semaphore.fresh_quiet C))
  rcases hphase with hq | ⟨c0, hs⟩
  · refine ⟨?_, hq.nonneg⟩
    rw [Semaphore.completedUnits_of_done _ h, hq.count]
    simp
  · exfalso
    obtain ⟨cl, hcl, hst⟩ := hs.call
    have := h cl (List.getElem?_mem hcl)
    rw [hst] at this
    exact absurd this (by decide)


/-! ## Release on an empty and on a non-empty queue -/

theorem Semaphore.signal_calls (s : Semaphore) : s.signal.calls = s.calls := by
  unfold Semaphore.signal
  split
  · split
    · show (s.resolve _).calls = s.calls
      unfold Semaphore.resolve
      split
      · split <;> rfl
      · rfl
    · rfl
  · rfl

theorem Semaphore.V_queue (n : Nat) (s : Semaphore) : (s.V n)._queue = s._queue := by
  induction n generalizing s with
  | zero => rfl
  | succ n ih =>
    show (s.signal.V n)._queue = s._queue
    rw [ih, Semaphore.signal_queue]

theorem Semaphore.V_calls (n : Nat) (s : Semaphore) : (s.V n).calls = s.calls := by
  induction n generalizing s with
  | zero => rfl
  | succ n ih =>
    show (s.signal.V n).calls = s.calls
    rw [ih, Semaphore.signal_calls]

/-- With a waiter in the queue, `V(n)` leaves the counter as it is. -/
theorem Semaphore.V_nonempty (n : Nat) (s : Semaphore) (h : s._queue.length ≠ 0) :
    (s.V n)._semaphore = s._semaphore := by
  induction n generalizing s with
  | zero => rfl
  | succ n ih =>
    show (s.signal.V n)._semaphore = s._semaphore
    rw [ih s.signal (by rw [Semaphore.signal_queue]; exact h), Semaphore.signal_semaphore,
      if_pos h]

/-- On an empty queue, `k` calls of `V(1)` add `k` to the counter. -/
theorem Semaphore.run_V1_empty (k : Nat) (s : Semaphore) (h : s._queue.tasks = []) :
    (s.run (List.replicate k (.V 1)))._semaphore = s._semaphore + k ∧
    (s.run (List.replicate k (.V 1)))._queue = s._queue := by
  induction k generalizing s with
  | zero => simp [Semaphore.run]
  | succ k ih =>
    have hV := Semaphore.V_empty 1 s h
    have := ih (s.V 1) (by rw [hV.2.1]; exact h)
    show ((s.V 1).run (List.replicate k (.V 1)))._semaphore = _ ∧
      ((s.V 1).run (List.replicate k (.V 1)))._queue = _
    rw [this.1, this.2, hV.1, hV.2.1]
    refine ⟨?_, rfl⟩
    push_cast
    ring

/-- On a new semaphore of capacity `p`, `P(n)` with `n > p` ends with its waiter at the
worker, outside the queue. -/
theorem Semaphore.fresh_P_stuck (p d : Nat) :
    ((Semaphore.fresh p).P (p + 1 + d)).Stuck 0 := by
  refine Semaphore.task_suspends 0 (p + 1 + d) _ rfl rfl rfl rfl ⟨_, rfl, rfl⟩ ?_ ?_
  · show (0 : Int) ≤ (p : Int)
    omega
  · show (p : Int) < ((p + 1 + d : Nat) : Int)
    push_cast
    omega

/-! ## The claims, continued -/

/-- With the counter as an exact integer, `k` calls of `V(1)` on a new semaphore of
capacity `C` give `C + k` with the queue still empty. -/
theorem Semaphore.over_release_exact (C k : Nat) :
    ((Semaphore.fresh C).run (List.replicate k (.V 1)))._semaphore = (C : Int) + k ∧
    ((Semaphore.fresh C).run (List.replicate k (.V 1)))._queue.getQueue = [] ∧
    ((Semaphore.fresh C).run (List.replicate k (.V 1)))._queue.length = 0 ∧
    ((Semaphore.fresh 10).run (List.replicate 10 (.V 1)))._semaphore = 20 := by
  have h := Semaphore.run_V1_empty k (Semaphore.fresh C) rfl
  refine ⟨h.1, ?_, ?_, by decide⟩
  · rw [h.2]; rfl
  · rw [h.2]; rfl

/-- C12: in every state, `P(0)` is fulfilled at once and leaves `_semaphore`, the queue,
the waiters and the history as they were. -/
theorem C12_acquire_zero_is_noop (s : Semaphore) :
    (s.P 0)._semaphore = s._semaphore ∧
    (s.P 0)._queue = s._queue ∧
    (s.P 0).waiters = s.waiters ∧
    (s.P 0).trace = s.trace ∧
    (s.P 0).calls = s.calls ++ [⟨0, .fulfilled⟩] := by
  refine ⟨?_, ?_, ?_, ?_, ?_⟩
  · simp [Semaphore.P, Semaphore.task, Semaphore.settleCall]
  · simp [Semaphore.P, Semaphore.task, Semaphore.settleCall]
  · simp [Semaphore.P, Semaphore.task, Semaphore.settleCall]
  · simp [Semaphore.P, Semaphore.task, Semaphore.settleCall]
  · simp [Semaphore.P, Semaphore.task, Semaphore.settleCall]

/-- C13 (the code at the failing input): on `new Semaphore(0)`, `rejectAll()` throws a
`TypeError` and leaves the state as it was; the `P(1)` that follows, issued with
`_semaphore = 0`, creates a waiter that is pushed to the worker and not queued; `V(1)` then
raises `_semaphore` to `1` and the call stays pending, also after any sequence `ops` of
further operations. -/
theorem C13_acquire_after_rejectAll_not_granted (fuel : Nat) (ops : List Op) :
    (Semaphore.fresh 0).rejectAll (fuel + 1) = (.threw .typeError, Semaphore.fresh 0) ∧
    ((Semaphore.fresh 0).run [.rejectAll (fuel + 1), .P 1])._queue.getQueue = [] ∧
    ((Semaphore.fresh 0).run [.rejectAll (fuel + 1), .P 1]).waiters =
      [⟨0, 0, .pending, false⟩] ∧
    ((Semaphore.fresh 0).run [.rejectAll (fuel + 1), .P 1, .V 1])._semaphore = 1 ∧
    ((Semaphore.fresh 0).run [.rejectAll (fuel + 1), .P 1, .V 1]).calls =
      [⟨1, .pending⟩] ∧
    (∃ cl, ((Semaphore.fresh 0).run (.rejectAll (fuel + 1) :: .P 1 :: .V 1 :: ops)).calls[0]?
      = some cl ∧ cl.state = .pending) := by
  have h0 : (Semaphore.fresh 0).rejectAll (fuel + 1) = (.threw .typeError, Semaphore.fresh 0) := by
    simp [Semaphore.rejectAll, Fastq.lengthIsTruthy, Semaphore.fresh, queue, Fastq.getQueue]
  have hrun : ∀ rest : List Op, (Semaphore.fresh 0).run (.rejectAll (fuel + 1) :: rest) =
      (Semaphore.fresh 0).run rest := by
    intro rest
    show (((Semaphore.fresh 0).rejectAll (fuel + 1)).2).run rest = _
    rw [h0]
  refine ⟨h0, ?_, ?_, ?_, ?_, ?_⟩
  · rw [hrun]; decide
  · rw [hrun]; decide
  · rw [hrun]; decide
  · rw [hrun]; decide
  · rw [hrun]
    exact (Semaphore.stuck_run (.V 1 :: ops) _ (Semaphore.fresh_P_stuck 0 0)).call

/-- C14 (the code at the failing input): on `new Semaphore(1)`, `P(2)` takes the permit
and suspends with `_semaphore = 0`; its waiter is not in the queue, so `rejectAll()` throws
a `TypeError` without rejecting anything: the call is still pending, and stays so after
any sequence `ops` of further operations.  `_semaphore` is `0` as claimed. -/
theorem C14_cancelled_bulk_acquire_not_rejected (fuel : Nat) (ops : List Op) :
    ((Semaphore.fresh 1).run [.P 2])._semaphore = 0 ∧
    ((Semaphore.fresh 1).run [.P 2])._queue.getQueue = [] ∧
    ((Semaphore.fresh 1).run [.P 2]).rejectAll (fuel + 1) =
      (.threw .typeError, (Semaphore.fresh 1).run [.P 2]) ∧
    ((Semaphore.fresh 1).run [.P 2, .rejectAll (fuel + 1)]).calls = [⟨2, .pending⟩] ∧
    ((Semaphore.fresh 1).run [.P 2, .rejectAll (fuel + 1)])._semaphore = 0 ∧
    (∃ cl, ((Semaphore.fresh 1).run (.P 2 :: .rejectAll (fuel + 1) :: ops)).calls[0]? =
      some cl ∧ cl.state = .pending) := by
  have h0 : ((Semaphore.fresh 1).run [.P 2]).rejectAll (fuel + 1) =
      (.threw .typeError, (Semaphore.fresh 1).run [.P 2]) := by
    have hq : ((Semaphore.fresh 1).run [.P 2])._queue.getQueue.head? = none := by decide
    simp only [Semaphore.rejectAll, Fastq.lengthIsTruthy, if_true, hq]
  have hrun : (Semaphore.fresh 1).run [.P 2, .rejectAll (fuel + 1)] =
      (Semaphore.fresh 1).run [.P 2] := by
    show (((Semaphore.fresh 1).run [.P 2]).rejectAll (fuel + 1)).2 = _
    rw [h0]
  refine ⟨by decide, by decide, h0, ?_, ?_, ?_⟩
  · rw [hrun]; decide
  · rw [hrun]; decide
  · exact (Semaphore.stuck_run (.rejectAll (fuel + 1) :: ops) _
      (Semaphore.fresh_P_stuck 1 0)).call

/-- C15 (the code at the failing input): on `new Semaphore(10)`, `P(10)` is fulfilled at
once; the `P(1)` that follows suspends, but its waiter is not in the queue, so `V(1)`
raises `_semaphore` to `1` and the call stays pending.  In general, on a new semaphore of
capacity `p`, a `P(n)` with `n > p` is still pending after any sequence `ops` of further
operations, releases and reactions included. -/
theorem C15_bulk_acquire_never_resolves (p d : Nat) (ops : List Op) :
    ((Semaphore.fresh 10).run [.P 10]).calls = [⟨10, .fulfilled⟩] ∧
    ((Semaphore.fresh 10).run [.P 10, .P 1]).calls = [⟨10, .fulfilled⟩, ⟨1, .pending⟩] ∧
    ((Semaphore.fresh 10).run [.P 10, .P 1])._queue.getQueue = [] ∧
    ((Semaphore.fresh 10).run [.P 10, .P 1, .V 1])._semaphore = 1 ∧
    ((Semaphore.fresh 10).run [.P 10, .P 1, .V 1]).calls =
      [⟨10, .fulfilled⟩, ⟨1, .pending⟩] ∧
    (∃ cl, ((Semaphore.fresh p).run (.P (p + 1 + d) :: ops)).calls[0]? = some cl ∧
      cl.state = .pending) := by
  refine ⟨by decide, by decide, by decide, by decide, by decide, ?_⟩
  exact (Semaphore.stuck_run ops _ (Semaphore.fresh_P_stuck p d)).call

/-- C16 (the code at the failing input): `V(n)` leaves the queue as it is in every state.
On `new Semaphore(0)` after `P(1)`, `P(1)` the queue holds one waiter (`W = 1`, `p = 0`);
`V(2)` calls `resolve` of that waiter twice, the queue still holds it, and `_semaphore` is
`0`, not `1`; the same for every `n`.  `V(2)` does equal `V(1)` twice. -/
theorem C16_bulk_release_keeps_queue (s : Semaphore) (n : Nat) :
    (s.V n)._queue = s._queue ∧
    ((Semaphore.fresh 0).run [.P 1, .P 1])._queue.getQueue = [1] ∧
    ((Semaphore.fresh 0).run [.P 1, .P 1])._semaphore = 0 ∧
    ((Semaphore.fresh 0).run [.P 1, .P 1, .V 2])._queue.getQueue = [1] ∧
    ((Semaphore.fresh 0).run [.P 1, .P 1, .V 2])._semaphore = 0 ∧
    ((Semaphore.fresh 0).run [.P 1, .P 1, .V 2]).trace =
      [.push 0, .push 1, .resolve 1, .resolve 1] ∧
    ((Semaphore.fresh 0).run [.P 1, .P 1, .V n])._semaphore = 0 ∧
    s.V 2 = (s.V 1).V 1 := by
  refine ⟨Semaphore.V_queue n s, by decide, by decide, by decide, by decide, by decide, ?_,
    rfl⟩
  show (((Semaphore.fresh 0).run [.P 1, .P 1]).V n)._semaphore = 0
  rw [Semaphore.V_nonempty n _ (by decide)]
  decide

/-- C17 (the code at the failing input): on `new Semaphore(0)`, A calls `P(2)` and B calls
`P(1)`.  A's waiter `0` goes to the worker and only B's waiter `1` is queued.  The first
`V(1)` fulfils waiter `1` and B's call completes when its reaction runs, after the first
release, not the second; the second and third `V(1)` call `resolve` of waiter `1` again.
A's call is pending after the three releases and after any sequence `ops` of further
operations.  On a semaphore whose first push is already spent (an earlier `P(1)`), A's
second waiter `3` is indeed appended behind B's waiter `2`, but the three releases all go
to waiter `1` and neither call completes. -/
theorem C17_bulk_acquirer_starves (ops : List Op) :
    ((Semaphore.fresh 0).run [.P 2, .P 1])._queue.getQueue = [1] ∧
    ((Semaphore.fresh 0).run [.P 2, .P 1, .V 1, .resume 1]).calls =
      [⟨2, .pending⟩, ⟨1, .fulfilled⟩] ∧
    ((Semaphore.fresh 0).run [.P 2, .P 1, .V 1, .resume 1, .V 1, .V 1]).trace =
      [.push 0, .push 1, .resolve 1, .resolve 1, .resolve 1] ∧
    ((Semaphore.fresh 0).run [.P 2, .P 1, .V 1, .resume 1, .V 1, .V 1]).calls =
      [⟨2, .pending⟩, ⟨1, .fulfilled⟩] ∧
    ((Semaphore.fresh 0).run [.P 2, .P 1, .V 1, .resume 1, .V 1, .V 1]).waiters =
      [⟨0, 1, .pending, false⟩, ⟨1, 0, .fulfilled, true⟩] ∧
    ((Semaphore.fresh 0).run [.P 1, .P 2, .P 1, .V 1, .resume 1])._queue.getQueue =
      [1, 2, 3] ∧
    ((Semaphore.fresh 0).run [.P 1, .P 2, .P 1, .V 1, .resume 1, .V 1, .V 1]).trace =
      [.push 0, .push 1, .push 2, .resolve 1, .push 3, .resolve 1, .resolve 1] ∧
    ((Semaphore.fresh 0).run [.P 1, .P 2, .P 1, .V 1, .resume 1, .V 1, .V 1]).calls =
      [⟨1, .pending⟩, ⟨2, .pending⟩, ⟨1, .pending⟩] ∧
    (∃ cl, ((Semaphore.fresh 0).run (.P 2 :: ops)).calls[0]? = some cl ∧
      cl.state = .pending) := by
  refine ⟨by decide, by decide, by decide, by decide, by decide, by decide, by decide,
    by decide, ?_⟩
  exact (Semaphore.stuck_run ops _ (Semaphore.fresh_P_stuck 0 1)).call

/-! ## The account of the units -/

theorem countP_set_le_add_one {α : Type} (p : α → Bool) (l : List α) (i : Nat) (v : α) :
    (l.set i v).countP p ≤ l.countP p + 1 := by
  induction l generalizing i with
  | nil => simp
  | cons a l ih =>
    cases i with
    | zero =>
      simp only [List.set_cons_zero, List.countP_cons]
      split <;> split <;> omega
    | succ i =>
      simp only [List.set_cons_succ, List.countP_cons]
      have := ih i
      omega

theorem countP_set_same {α : Type} (p : α → Bool) (l : List α) (i : Nat) (x v : α)
    (hx : l[i]? = some x) (hp : p v = p x) : (l.set i v).countP p = l.countP p := by
  induction l generalizing i with
  | nil => simp
  | cons a l ih =>
    cases i with
    | zero =>
      have ha : a = x := by simpa using hx
      subst ha
      simp only [List.set_cons_zero, List.countP_cons, hp]
    | succ i =>
      have hx1 : l[i]? = some x := by simpa using hx
      simp only [List.set_cons_succ, List.countP_cons, ih i hx1]

theorem Semaphore.settleCall_handedUnits (s : Semaphore) (c : Nat) (st : PromiseState) :
    (s.settleCall c st).handedUnits = s.handedUnits := by
  unfold Semaphore.handedUnits
  rw [Semaphore.settleCall_waiters]

theorem Semaphore.resolve_trace (s : Semaphore) (w : Nat) :
    (s.resolve w).trace = s.trace := by
  unfold Semaphore.resolve
  split
  · split <;> rfl
  · rfl

theorem Semaphore.resolve_handedUnits (s : Semaphore) (w : Nat) :
    (s.resolve w).handedUnits ≤ s.handedUnits + 1 := by
  unfold Semaphore.resolve
  split
  · split
    · exact countP_set_le_add_one _ _ _ _
    · exact Nat.le_succ _
  · exact Nat.le_succ _

theorem Semaphore.reject_handedUnits (s : Semaphore) (w : Nat) :
    (s.reject w).handedUnits = s.handedUnits := by
  unfold Semaphore.reject
  split
  · next x hx =>
    split
    · next hp =>
      exact countP_set_same _ _ _ x _ hx (by simp [hp])
    · rfl
  · rfl

theorem Semaphore.ledger_of_eq {C R : Nat} {s t : Semaphore} (h : s.Ledger C R)
    (h1 : t._semaphore = s._semaphore) (h2 : t.trace = s.trace)
    (h3 : t.handedUnits = s.handedUnits) : t.Ledger C R := by
  refine ⟨?_, ?_, ?_⟩
  · rw [h1, h.law]
    unfold Semaphore.fastUnits Semaphore.increments
    rw [h2]
  · rw [h3]
    unfold Semaphore.resolveCalls
    rw [h2]
    exact h.handed
  · unfold Semaphore.increments Semaphore.resolveCalls
    rw [h2]
    exact h.released

theorem Semaphore.fresh_ledger (C : Nat) : (Semaphore.fresh C).Ledger C 0 := by
  refine ⟨?_, ?_, ?_⟩
  · show (C : Int) = (C : Int) - ((0 : Nat) : Int) + ((0 : Nat) : Int)
    simp
  · exact Nat.le_refl _
  · rfl

theorem Semaphore.ledger_suspend {C R : Nat} {s : Semaphore} (h : s.Ledger C R)
    (c n : Nat) : (s.suspend c n).Ledger C R := by
  refine ⟨?_, ?_, ?_⟩
  · have := h.law
    simpa [Semaphore.suspend, Semaphore.fastUnits, Semaphore.increments] using this
  · have := h.handed
    simpa [Semaphore.suspend, Semaphore.handedUnits, Semaphore.resolveCalls,
      Event.isResolve] using this
  · have := h.released
    simpa [Semaphore.suspend, Semaphore.increments, Semaphore.resolveCalls,
      Event.isResolve] using this

theorem Semaphore.ledger_dec {C R : Nat} {s : Semaphore} (h : s.Ledger C R) :
    Semaphore.Ledger C R
      { s with _semaphore := s._semaphore - 1, trace := s.trace ++ [Event.dec] } := by
  refine ⟨?_, ?_, ?_⟩
  · have := h.law
    simp only [Semaphore.fastUnits, Semaphore.increments, List.count_append] at this ⊢
    rw [this]
    simp
    ring
  · have := h.handed
    simpa [Semaphore.handedUnits, Semaphore.resolveCalls, Event.isResolve] using this
  · have := h.released
    simpa [Semaphore.increments, Semaphore.resolveCalls, Event.isResolve] using this

theorem Semaphore.ledger_task {C R : Nat} (c n : Nat) (s : Semaphore) (h : s.Ledger C R) :
    (Semaphore.task c n s).Ledger C R := by
  induction n generalizing s with
  | zero =>
    exact Semaphore.ledger_of_eq h (Semaphore.settleCall_semaphore _ _ _)
      (Semaphore.settleCall_trace _ _ _) (Semaphore.settleCall_handedUnits _ _ _)
  | succ n ih =>
    unfold Semaphore.task
    split
    · show Semaphore.Ledger C R (if _ then _ else _)
      split
      · exact ih _ (Semaphore.ledger_dec h)
      · exact Semaphore.ledger_suspend (Semaphore.ledger_dec h) c n
    · exact Semaphore.ledger_suspend h c n

theorem Semaphore.ledger_P {C R : Nat} (n : Nat) (s : Semaphore) (h : s.Ledger C R) :
    (s.P n).Ledger C R :=
  Semaphore.ledger_task _ _ _ (Semaphore.ledger_of_eq h rfl rfl rfl)

theorem Semaphore.ledger_signal {C R : Nat} (s : Semaphore) (h : s.Ledger C R) :
    s.signal.Ledger C (R + 1) := by
  unfold Semaphore.signal
  split
  · next hlen =>
    split
    · next w _ =>
      refine ⟨?_, ?_, ?_⟩
      · have := h.law
        simpa [Semaphore.fastUnits, Semaphore.increments, Semaphore.resolve_semaphore]
          using this
      · have h1 := h.handed
        have h2 := Semaphore.resolve_handedUnits s w
        simp only [Semaphore.handedUnits, Semaphore.resolveCalls, List.countP_append,
          List.countP_singleton, Event.isResolve] at h1 h2 ⊢
        simp only [if_true]
        omega
      · have := h.released
        simp only [Semaphore.increments, Semaphore.resolveCalls, List.countP_append,
          List.count_append, List.countP_singleton, Event.isResolve] at this ⊢
        simp
        omega
    · next hnone =>
      exfalso
      apply hlen
      have : s._queue.tasks = [] := by simpa [Fastq.getQueue] using hnone
      simp [Fastq.length, this]
  · refine ⟨?_, ?_, ?_⟩
    · have := h.law
      simp only [Semaphore.fastUnits, Semaphore.increments, List.count_append] at this ⊢
      rw [this]
      simp
      ring
    · have := h.handed
      simpa [Semaphore.handedUnits, Semaphore.resolveCalls, Event.isResolve] using this
    · have := h.released
      simp only [Semaphore.increments, Semaphore.resolveCalls, List.countP_append,
        List.count_append, List.countP_singleton, Event.isResolve] at this ⊢
      simp
      omega

theorem Semaphore.ledger_V {C R : Nat} (n : Nat) (s : Semaphore) (h : s.Ledger C R) :
    (s.V n).Ledger C (R + n) := by
  induction n generalizing s R with
  | zero => exact h
  | succ n ih =>
    have := ih s.signal (Semaphore.ledger_signal s h)
    rw [show R + (n + 1) = R + 1 + n by omega]
    exact this

theorem Semaphore.ledger_rejectAll {C R : Nat} (fuel : Nat) (s : Semaphore)
    (h : s.Ledger C R) : (s.rejectAll fuel).2.Ledger C R := by
  induction fuel generalizing s with
  | zero => exact h
  | succ fuel ih =>
    simp only [Semaphore.rejectAll, Fastq.lengthIsTruthy, if_true]
    split
    · exact h
    · next w _ =>
      apply ih
      refine ⟨?_, ?_, ?_⟩
      · have := h.law
        simpa [Semaphore.fastUnits, Semaphore.increments, Semaphore.reject_semaphore]
          using this
      · have h1 := h.handed
        have h2 := Semaphore.reject_handedUnits s w
        simp only [Semaphore.handedUnits, Semaphore.resolveCalls, List.countP_append,
          List.countP_singleton, Event.isResolve] at h1 h2 ⊢
        simp only [Bool.false_eq_true, if_false]
        omega
      · have := h.released
        simpa [Semaphore.increments, Semaphore.resolveCalls, Event.isResolve] using this

theorem Semaphore.ledger_resume {C R : Nat} (w : Nat) (s : Semaphore) (h : s.Ledger C R) :
    (s.resume w).Ledger C R := by
  unfold Semaphore.resume
  split
  · next x hx =>
    split
    · apply Semaphore.ledger_task
      refine Semaphore.ledger_of_eq h rfl rfl ?_
      exact countP_set_same _ _ _ x _ hx rfl
    · split
      · exact Semaphore.ledger_of_eq h (Semaphore.settleCall_semaphore _ _ _)
          (Semaphore.settleCall_trace _ _ _) (Semaphore.settleCall_handedUnits _ _ _)
      · exact h
  · exact h

theorem Semaphore.ledger_step {C R : Nat} (op : Op) (s : Semaphore) (h : s.Ledger C R) :
    (s.step op).Ledger C (R + op.released) := by
  cases op with
  | P n => exact Semaphore.ledger_P n s h
  | V n => exact Semaphore.ledger_V n s h
  | rejectAll k => exact Semaphore.ledger_rejectAll k s h
  | resume w => exact Semaphore.ledger_resume w s h

theorem Semaphore.ledger_run {C R : Nat} (ops : List Op) (s : Semaphore)
    (h : s.Ledger C R) : (s.run ops).Ledger C (R + releasedUnits ops) := by
  induction ops generalizing s R with
  | nil => exact h
  | cons op ops ih =>
    have := ih (s.step op) (Semaphore.ledger_step op s h)
    have e : R + releasedUnits (op :: ops) = R + op.released + releasedUnits ops := by
      simp [releasedUnits, Nat.add_assoc]
    rw [e]
    exact this

/-- The units obtained never exceed the capacity plus the units released. -/
theorem Semaphore.granted_le {C R : Nat} (s : Semaphore) (h : s.Ledger C R)
    (hnn : 0 ≤ s._semaphore) : s.grantedUnits ≤ C + R := by
  have h1 := h.law
  have h2 := h.handed
  have h3 := h.released
  unfold Semaphore.grantedUnits
  omega

/-! ## Calls and units when every acquire asks for at least one unit -/

theorem countP_set_gain {α : Type} (p : α → Bool) (l : List α) (i : Nat) (x v : α)
    (hx : l[i]? = some x) (h0 : p x = false) (h1 : p v = true) :
    (l.set i v).countP p = l.countP p + 1 := by
  induction l generalizing i with
  | nil => simp at hx
  | cons a l ih =>
    cases i with
    | zero =>
      have ha : a = x := by simpa using hx
      subst ha
      simp only [List.set_cons_zero, List.countP_cons, h0, h1]
      simp
    | succ i =>
      have hx1 : l[i]? = some x := by simpa using hx
      simp only [List.set_cons_succ, List.countP_cons, ih i hx1]
      omega

theorem Semaphore.settleCall_fulfilledCalls (s : Semaphore) (c : Nat) (st : PromiseState) :
    (s.settleCall c st).fulfilledCalls ≤ s.fulfilledCalls + 1 := by
  unfold Semaphore.settleCall
  split
  · split
    · exact countP_set_le_add_one _ _ _ _
    · exact Nat.le_succ _
  · exact Nat.le_succ _

theorem Semaphore.settleCall_fulfilledCalls_rejected (s : Semaphore) (c : Nat) :
    (s.settleCall c .rejected).fulfilledCalls = s.fulfilledCalls := by
  unfold Semaphore.settleCall
  split
  · next x hx =>
    split
    · next hp =>
      exact countP_set_same _ _ _ x _ hx (by simp [hp])
    · rfl
  · rfl

theorem Semaphore.flow_suspend (s : Semaphore) (c n : Nat)
    (hres : ∀ x ∈ s.waiters, x.resumed = true → x.state = .fulfilled)
    (hpaid : s.fulfilledCalls ≤ s.fastUnits + s.resumedWaiters) : (s.suspend c n).Flow := by
  refine ⟨?_, ?_⟩
  · intro x hx hr
    simp only [Semaphore.suspend, List.mem_append, List.mem_singleton] at hx
    rcases hx with hx | hx
    · exact hres x hx hr
    · rw [hx] at hr
      exact absurd hr (by simp)
  · simpa [Semaphore.suspend, Semaphore.fulfilledCalls, Semaphore.fastUnits,
      Semaphore.resumedWaiters] using hpaid

theorem Semaphore.flow_task (c n : Nat) (s : Semaphore)
    (hres : ∀ x ∈ s.waiters, x.resumed = true → x.state = .fulfilled)
    (hpaid : s.fulfilledCalls + (if n = 0 then 1 else 0) ≤ s.fastUnits + s.resumedWaiters) :
    (Semaphore.task c n s).Flow := by
  induction n generalizing s with
  | zero =>
    refine ⟨?_, ?_⟩
    · show ∀ x ∈ (s.settleCall c .fulfilled).waiters, _
      rw [Semaphore.settleCall_waiters]
      exact hres
    · have h1 := Semaphore.settleCall_fulfilledCalls s c .fulfilled
      have h2 : (s.settleCall c .fulfilled).fastUnits = s.fastUnits := by
        unfold Semaphore.fastUnits
        rw [Semaphore.settleCall_trace]
      have h3 : (s.settleCall c .fulfilled).resumedWaiters = s.resumedWaiters := by
        unfold Semaphore.resumedWaiters
        rw [Semaphore.settleCall_waiters]
      show (s.settleCall c .fulfilled).fulfilledCalls ≤
        (s.settleCall c .fulfilled).fastUnits + (s.settleCall c .fulfilled).resumedWaiters
      rw [h2, h3]
      simp only [if_true] at hpaid
      omega
  | succ n ih =>
    have hpaid0 : s.fulfilledCalls ≤ s.fastUnits + s.resumedWaiters := by
      simpa using hpaid
    have hdec : ∀ t : Semaphore,
        t = { s with _semaphore := s._semaphore - 1, trace := s.trace ++ [Event.dec] } →
        t.fulfilledCalls + 1 ≤ t.fastUnits + t.resumedWaiters := by
      intro t ht
      subst ht
      simp only [Semaphore.fulfilledCalls, Semaphore.fastUnits, Semaphore.resumedWaiters,
        List.count_append] at hpaid0 ⊢
      simp
      omega
    unfold Semaphore.task
    split
    · show Semaphore.Flow (if _ then _ else _)
      split
      · apply ih
        · exact hres
        · have := hdec _ rfl
          split <;> omega
      · apply Semaphore.flow_suspend
        · exact hres
        · have := hdec _ rfl
          omega
    · exact Semaphore.flow_suspend s c n hres hpaid0

theorem Semaphore.flow_P (n : Nat) (s : Semaphore) (h : s.Flow) (hn : 1 ≤ n) :
    (s.P n).Flow := by
  apply Semaphore.flow_task
  · exact h.resumed
  · have := h.paid
    have hn0 : ¬ n = 0 := by omega
    simpa [Semaphore.fulfilledCalls, Semaphore.fastUnits, Semaphore.resumedWaiters, hn0]
      using this

theorem Semaphore.flow_resume (w : Nat) (s : Semaphore) (h : s.Flow) : (s.resume w).Flow := by
  unfold Semaphore.resume
  split
  · next x hx =>
    split
    · next hc =>
      apply Semaphore.flow_task
      · intro y hy _
        rcases List.mem_or_eq_of_mem_set hy with hy | hy
        · rename_i hr
          exact h.resumed y hy hr
        · rw [hy]
          exact hc.1
      · have h1 := h.paid
        have h2 : (s.waiters.set w { x with resumed := true }).countP (fun x => x.resumed) =
            s.waiters.countP (fun x => x.resumed) + 1 :=
          countP_set_gain _ _ _ x _ hx hc.2 rfl
        have h3 : s.fulfilledCalls + 1 ≤ s.fastUnits + (s.resumedWaiters + 1) := by omega
        have h4 : (if x.n = 0 then 1 else 0) ≤ 1 := by split <;> omega
        simp only [Semaphore.fulfilledCalls, Semaphore.fastUnits, Semaphore.resumedWaiters]
          at h3 ⊢
        rw [h2]
        omega
    · split
      · refine ⟨?_, ?_⟩
        · rw [Semaphore.settleCall_waiters]
          exact h.resumed
        · have h1 := h.paid
          have h3 := Semaphore.settleCall_fulfilledCalls_rejected s x.call
          rw [h3]
          simp only [Semaphore.fulfilledCalls, Semaphore.fastUnits,
            Semaphore.resumedWaiters, Semaphore.settleCall_trace,
            Semaphore.settleCall_waiters] at h1 ⊢
          exact h1
      · exact h
  · exact h

theorem Semaphore.flow_resolve (w : Nat) (s : Semaphore) (h : s.Flow) : (s.resolve w).Flow := by
  unfold Semaphore.resolve
  split
  · next x hx =>
    split
    · refine ⟨?_, ?_⟩
      · intro y hy hr
        rcases List.mem_or_eq_of_mem_set hy with hy | hy
        · exact h.resumed y hy hr
        · rw [hy]
      · have h1 := h.paid
        have h2 : (s.waiters.set w { x with state := .fulfilled }).countP
            (fun x => x.resumed) = s.waiters.countP (fun x => x.resumed) :=
          countP_set_same _ _ _ x _ hx rfl
        simp only [Semaphore.fulfilledCalls, Semaphore.fastUnits, Semaphore.resumedWaiters]
          at h1 ⊢
        rw [h2]
        exact h1
    · exact h
  · exact h

theorem Semaphore.flow_signal (s : Semaphore) (h : s.Flow) : s.signal.Flow := by
  unfold Semaphore.signal
  split
  · split
    · next w _ =>
      have hr := Semaphore.flow_resolve w s h
      refine ⟨hr.resumed, ?_⟩
      have := hr.paid
      simpa [Semaphore.fulfilledCalls, Semaphore.fastUnits, Semaphore.resumedWaiters,
        Semaphore.resolve_trace] using this
    · exact h
  · refine ⟨h.resumed, ?_⟩
    have := h.paid
    simpa [Semaphore.fulfilledCalls, Semaphore.fastUnits, Semaphore.resumedWaiters]
      using this

theorem Semaphore.flow_V (n : Nat) (s : Semaphore) (h : s.Flow) : (s.V n).Flow := by
  induction n generalizing s with
  | zero => exact h
  | succ n ih => exact ih _ (Semaphore.flow_signal s h)

theorem Semaphore.fresh_flow (C : Int) : (Semaphore.fresh C).Flow := by
  refine ⟨?_, ?_⟩
  · intro x hx
    exact absurd hx (List.not_mem_nil x)
  · exact Nat.zero_le _

/-- With every acquire asking for at least one unit, the fulfilled calls never exceed the
capacity plus the units released. -/
theorem Semaphore.fulfilled_le {C R : Nat} (s : Semaphore) (hl : s.Ledger C R)
    (hf : s.Flow) (hnn : 0 ≤ s._semaphore) : s.fulfilledCalls ≤ C + R := by
  have h1 := Semaphore.granted_le s hl hnn
  have h2 := hf.paid
  have h3 : s.resumedWaiters ≤ s.handedUnits := by
    unfold Semaphore.resumedWaiters Semaphore.handedUnits
    apply List.countP_mono_left
    intro x hx hr
    simpa using hf.resumed x hx (by simpa using hr)
  unfold Semaphore.grantedUnits at h1
  omega

theorem Semaphore.flow_reject (w : Nat) (s : Semaphore) (h : s.Flow) : (s.reject w).Flow := by
  unfold Semaphore.reject
  split
  · next x hx =>
    split
    · next hp =>
      have hxr : x.resumed = false := by
        cases hr : x.resumed with
        | false => rfl
        | true =>
          have := h.resumed x (List.getElem?_mem hx) hr
          rw [hp] at this
          exact absurd this (by decide)
      refine ⟨?_, ?_⟩
      · intro y hy hr
        rcases List.mem_or_eq_of_mem_set hy with hy | hy
        · exact h.resumed y hy hr
        · rw [hy] at hr
          rw [hxr] at hr
          exact absurd hr (by decide)
      · have h1 := h.paid
        have h2 : (s.waiters.set w { x with state := .rejected }).countP
            (fun x => x.resumed) = s.waiters.countP (fun x => x.resumed) :=
          countP_set_same _ _ _ x _ hx rfl
        simp only [Semaphore.fulfilledCalls, Semaphore.fastUnits, Semaphore.resumedWaiters]
          at h1 ⊢
        rw [h2]
        exact h1
    · exact h
  · exact h

theorem Semaphore.flow_rejectAll (fuel : Nat) (s : Semaphore) (h : s.Flow) :
    (s.rejectAll fuel).2.Flow := by
  induction fuel generalizing s with
  | zero => exact h
  | succ fuel ih =>
    simp only [Semaphore.rejectAll, Fastq.lengthIsTruthy, if_true]
    split
    · exact h
    · next w _ =>
      apply ih
      have hr := Semaphore.flow_reject w s h
      refine ⟨hr.resumed, ?_⟩
      have := hr.paid
      have ht : (s.reject w).trace = s.trace := by
        unfold Semaphore.reject
        split
        · split <;> rfl
        · rfl
      simpa [Semaphore.fulfilledCalls, Semaphore.fastUnits, Semaphore.resumedWaiters, ht]
        using this

/-- `Flow` holds along every sequence whose acquires ask for at least one unit. -/
theorem Semaphore.flow_run (ops : List Op) (s : Semaphore) (h : s.Flow)
    (hops : ∀ n, Op.P n ∈ ops → 1 ≤ n) : (s.run ops).Flow := by
  induction ops generalizing s with
  | nil => exact h
  | cons op ops ih =>
    apply ih
    · cases op with
      | P n => exact Semaphore.flow_P n s h (hops n (List.mem_cons_self _ _))
      | V n => exact Semaphore.flow_V n s h
      | rejectAll k => exact Semaphore.flow_rejectAll k s h
      | resume w => exact Semaphore.flow_resume w s h
    · intro n hn
      exact hops n (List.mem_cons_of_mem _ hn)

/-! ## Fulfilled calls stay fulfilled -/

theorem Semaphore.settleCall_keeps (s : Semaphore) (c : Nat) (st : PromiseState) (j : Nat)
    (cl : Call) (h : s.calls[j]? = some cl) (hf : cl.state = .fulfilled) :
    (s.settleCall c st).calls[j]? = some cl := by
  unfold Semaphore.settleCall
  split
  · next x hx =>
    split
    · next hp =>
      by_cases hj : c = j
      · subst hj
        rw [hx] at h
        injection h with h
        subst h
        rw [hf] at hp
        exact absurd hp (by decide)
      · simp only [List.getElem?_set_ne hj]
        exact h
    · exact h
  · exact h

theorem Semaphore.task_keeps (c n : Nat) (s : Semaphore) (j : Nat) (cl : Call)
    (h : s.calls[j]? = some cl) (hf : cl.state = .fulfilled) :
    (Semaphore.task c n s).calls[j]? = some cl := by
  induction n generalizing s with
  | zero => exact Semaphore.settleCall_keeps s c _ j cl h hf
  | succ n ih =>
    unfold Semaphore.task
    split
    · show (if _ then _ else _ : Semaphore).calls[j]? = some cl
      split
      · exact ih _ h
      · exact h
    · exact h

theorem Semaphore.P_keeps (n : Nat) (s : Semaphore) (j : Nat) (cl : Call)
    (h : s.calls[j]? = some cl) (hf : cl.state = .fulfilled) :
    (s.P n).calls[j]? = some cl := by
  apply Semaphore.task_keeps _ _ _ _ _ _ hf
  have hlt : j < s.calls.length := (List.getElem?_eq_some_iff.1 h).1
  show (s.calls ++ _)[j]? = some cl
  rw [List.getElem?_append_left hlt]
  exact h

theorem Semaphore.resume_keeps (w : Nat) (s : Semaphore) (j : Nat) (cl : Call)
    (h : s.calls[j]? = some cl) (hf : cl.state = .fulfilled) :
    (s.resume w).calls[j]? = some cl := by
  unfold Semaphore.resume
  split
  · split
    · exact Semaphore.task_keeps _ _ _ _ _ h hf
    · split
      · exact Semaphore.settleCall_keeps _ _ _ _ _ h hf
      · exact h
  · exact h

/-! ## The stock -/

/-- Flags that are set only where the call is fulfilled are no more than the fulfilled
calls. -/
theorem count_flags_le (fl : List Bool) (cs : List Call)
    (h : ∀ j : Nat, fl[j]? = some true →
      ∃ c : Call, cs[j]? = some c ∧ c.state = .fulfilled) :
    fl.countP id ≤ cs.countP (fun c => c.state = .fulfilled) := by
  induction fl generalizing cs with
  | nil => simp
  | cons b fl ih =>
    cases cs with
    | nil =>
      have hb : b = false := by
        cases b with
        | false => rfl
        | true =>
          obtain ⟨c, hc, -⟩ := h 0 (by simp)
          simp at hc
      have := ih [] (fun j hj => by
        obtain ⟨c, hc, -⟩ := h (j + 1) (by simpa using hj)
        simp at hc)
      subst hb
      simpa using this
    | cons c cs =>
      have htl := ih cs (fun j hj => by
        obtain ⟨c1, hc1, hf1⟩ := h (j + 1) (by simpa using hj)
        exact ⟨c1, by simpa using hc1, hf1⟩)
      cases b with
      | false =>
        simp only [List.countP_cons]
        simp only [id, Bool.false_eq_true, if_false]
        omega
      | true =>
        obtain ⟨c0, hc0, hf0⟩ := h 0 (by simp)
        have hc : c = c0 := by simpa using hc0
        subst hc
        simp only [List.countP_cons]
        simp only [id, hf0, decide_True, if_true]
        omega

theorem Stock.init_inv (K : Nat) : (Stock.init K).Inv K := by
  refine ⟨?_, Semaphore.fresh_ledger K, Semaphore.fresh_ledger 0,
    Semaphore.fresh_counterInv K, Semaphore.fresh_counterInv 0, Semaphore.fresh_flow _,
    Semaphore.fresh_flow _, ?_, ?_⟩
  · simp [Stock.init]
  · intro j hj
    simp [Stock.init] at hj
  · intro j hj
    simp [Stock.init] at hj

/-- A new flag `false` at the end sets no flag. -/
theorem flags_append_false (fl : List Bool) (j : Nat) (h : (fl ++ [false])[j]? = some true) :
    fl[j]? = some true := by
  by_cases hj : j < fl.length
  · rw [List.getElem?_append_left hj] at h
    exact h
  · rw [List.getElem?_append_right (by omega)] at h
    have := List.getElem?_mem h
    simp at this

/-- Setting flag `j` sets no other flag. -/
theorem flags_set_true (fl : List Bool) (j i : Nat) (h : (fl.set j true)[i]? = some true)
    (hij : j ≠ i) : fl[i]? = some true := by
  rw [List.getElem?_set_ne hij] at h
  exact h

theorem Stock.step_inv (K : Nat) (op : StockOp) (st : Stock) (h : st.Inv K) :
    (st.step op).Inv K := by
  cases op with
  | produceCall =>
    have hcount : (st.produced ++ [false]).countP id = st.produced.countP id := by simp
    refine ⟨?_, ?_, ?_, ?_, h.emptyCounter, ?_, h.emptyFlow, ?_, h.emptyPassed⟩
    · have := h.count
      simpa [Stock.step] using this
    · exact Semaphore.ledger_P 1 _ h.fullLedger
    · show Semaphore.Ledger 0 ((st.produced ++ [false]).countP id) st.notempty
      rw [hcount]
      exact h.emptyLedger
    · exact Semaphore.P_counterInv 1 _ h.fullCounter
    · exact Semaphore.flow_P 1 _ h.fullFlow (Nat.le_refl 1)
    · intro j hj
      obtain ⟨c, hc, hf⟩ := h.fullPassed j (flags_append_false _ j hj)
      exact ⟨c, Semaphore.P_keeps 1 _ j c hc hf, hf⟩
  | consumeCall =>
    have hcount : (st.consumed ++ [false]).countP id = st.consumed.countP id := by simp
    refine ⟨?_, ?_, ?_, h.fullCounter, ?_, h.fullFlow, ?_, h.fullPassed, ?_⟩
    · have := h.count
      simpa [Stock.step] using this
    · show Semaphore.Ledger K ((st.consumed ++ [false]).countP id) st.notfull
      rw [hcount]
      exact h.fullLedger
    · exact Semaphore.ledger_P 1 _ h.emptyLedger
    · exact Semaphore.P_counterInv 1 _ h.emptyCounter
    · exact Semaphore.flow_P 1 _ h.emptyFlow (Nat.le_refl 1)
    · intro j hj
      obtain ⟨c, hc, hf⟩ := h.emptyPassed j (flags_append_false _ j hj)
      exact ⟨c, Semaphore.P_keeps 1 _ j c hc hf, hf⟩
  | reactNotfull w =>
    refine ⟨h.count, Semaphore.ledger_resume w _ h.fullLedger, h.emptyLedger,
      Semaphore.resume_counterInv w _ h.fullCounter, h.emptyCounter,
      Semaphore.flow_resume w _ h.fullFlow, h.emptyFlow, ?_, h.emptyPassed⟩
    intro j hj
    obtain ⟨c, hc, hf⟩ := h.fullPassed j hj
    exact ⟨c, Semaphore.resume_keeps w _ j c hc hf, hf⟩
  | reactNotempty w =>
    refine ⟨h.count, h.fullLedger, Semaphore.ledger_resume w _ h.emptyLedger,
      h.fullCounter, Semaphore.resume_counterInv w _ h.emptyCounter,
      h.fullFlow, Semaphore.flow_resume w _ h.emptyFlow, h.fullPassed, ?_⟩
    intro j hj
    obtain ⟨c, hc, hf⟩ := h.emptyPassed j hj
    exact ⟨c, Semaphore.resume_keeps w _ j c hc hf, hf⟩
  | produceResume j =>
    simp only [Stock.step]
    split
    · next c hfl hc =>
      split
      · next hf =>
        have hcount : (st.produced.set j true).countP id = st.produced.countP id + 1 :=
          countP_set_gain _ _ _ false _ hfl rfl rfl
        refine ⟨?_, h.fullLedger, ?_, h.fullCounter, ?_, h.fullFlow, ?_, ?_, ?_⟩
        · show st.items + 1 = ((st.produced.set j true).countP id : Int) - _
          rw [hcount, h.count]
          push_cast
          ring
        · show Semaphore.Ledger 0 ((st.produced.set j true).countP id) (st.notempty.V 1)
          rw [hcount]
          exact Semaphore.ledger_V 1 _ h.emptyLedger
        · exact Semaphore.V_counterInv 1 _ h.emptyCounter
        · exact Semaphore.flow_V 1 _ h.emptyFlow
        · intro i hi
          by_cases hij : j = i
          · subst hij
            exact ⟨c, hc, hf⟩
          · exact h.fullPassed i (flags_set_true _ j i hi hij)
        · intro i hi
          obtain ⟨c1, hc1, hf1⟩ := h.emptyPassed i hi
          exact ⟨c1, by rw [Semaphore.V_calls]; exact hc1, hf1⟩
      · exact h
    · exact h
  | consumeResume j =>
    simp only [Stock.step]
    split
    · next c hfl hc =>
      split
      · next hf =>
        have hcount : (st.consumed.set j true).countP id = st.consumed.countP id + 1 :=
          countP_set_gain _ _ _ false _ hfl rfl rfl
        refine ⟨?_, ?_, h.emptyLedger, ?_, h.emptyCounter, ?_, h.emptyFlow, ?_, ?_⟩
        · show st.items - 1 = _ - ((st.consumed.set j true).countP id : Int)
          rw [hcount, h.count]
          push_cast
          ring
        · show Semaphore.Ledger K ((st.consumed.set j true).countP id) (st.notfull.V 1)
          rw [hcount]
          exact Semaphore.ledger_V 1 _ h.fullLedger
        · exact Semaphore.V_counterInv 1 _ h.fullCounter
        · exact Semaphore.flow_V 1 _ h.fullFlow
        · intro i hi
          obtain ⟨c1, hc1, hf1⟩ := h.fullPassed i hi
          exact ⟨c1, by rw [Semaphore.V_calls]; exact hc1, hf1⟩
        · intro i hi
          by_cases hij : j = i
          · subst hij
            exact ⟨c, hc, hf⟩
          · exact h.emptyPassed i (flags_set_true _ j i hi hij)
      · exact h
    · exact h

theorem Stock.run_inv (K : Nat) (ops : List StockOp) (st : Stock) (h : st.Inv K) :
    (st.run ops).Inv K := by
  induction ops generalizing st with
  | nil => exact h
  | cons op ops ih => exact ih _ (Stock.step_inv K op st h)

/-- In a state with the invariant, `items` is between `0` and `K`. -/
theorem Stock.items_bounds (K : Nat) (st : Stock) (h : st.Inv K) :
    0 ≤ st.items ∧ st.items ≤ K := by
  have hP : st.produced.countP id ≤ K + st.consumed.countP id :=
    Nat.le_trans (count_flags_le _ _ h.fullPassed)
      (Semaphore.fulfilled_le _ h.fullLedger h.fullFlow h.fullCounter.1)
  have hC : st.consumed.countP id ≤ 0 + st.produced.countP id :=
    Nat.le_trans (count_flags_le _ _ h.emptyPassed)
      (Semaphore.fulfilled_le _ h.emptyLedger h.emptyFlow h.emptyCounter.1)
  have := h.count
  omega

/-- C19 (the code at the failing input): on `new Semaphore(0)` after `P(1)`, `P(1)`,
`V(1)`, `V(1)`, two units were released (`R = 2`) and one was obtained (`G = 1`: waiter `1`
was fulfilled by the first `V(1)`; the second called `resolve` of the same waiter again),
yet `_semaphore` is `0`, not `0 + 2 - 1`.  A round of `rejectAll()` changes neither count. -/
theorem C19_unit_conservation_fails (s : Semaphore) (w : Nat) :
    ((Semaphore.fresh 0).run [.P 1, .P 1, .V 1, .V 1])._semaphore = 0 ∧
    releasedUnits [.P 1, .P 1, .V 1, .V 1] = 2 ∧
    ((Semaphore.fresh 0).run [.P 1, .P 1, .V 1, .V 1]).rounds = 2 ∧
    ((Semaphore.fresh 0).run [.P 1, .P 1, .V 1, .V 1]).fastUnits = 0 ∧
    ((Semaphore.fresh 0).run [.P 1, .P 1, .V 1, .V 1]).handedUnits = 1 ∧
    ((Semaphore.fresh 0).run [.P 1, .P 1, .V 1, .V 1]).grantedUnits = 1 ∧
    ((Semaphore.fresh 0).run [.P 1, .P 1, .V 1, .V 1]).trace =
      [.push 0, .push 1, .resolve 1, .resolve 1] ∧
    ¬ Semaphore.UnitConservation 0 [.P 1, .P 1, .V 1, .V 1] ∧
    (s.reject w).handedUnits = s.handedUnits ∧
    (s.reject w)._semaphore = s._semaphore := by
  refine ⟨by decide, by decide, by decide, by decide, by decide, by decide, by decide, ?_,
    Semaphore.reject_handedUnits s w, Semaphore.reject_semaphore s w⟩
  unfold Semaphore.UnitConservation
  decide

/-- C20: in every state reached from a semaphore of capacity `C`, the units granted
(fast-path decrements plus hand-offs to waiters) exceed the units released by at most `C`,
whatever the sequence of operations; and when every acquire asks for at least one unit,
the fulfilled acquire calls exceed the units released by at most `C`.  With `C = 1` at
most one unit is granted and not yet released. -/
theorem C20_granted_units_bounded (C : Nat) (ops ops1 : List Op) :
    ((Semaphore.fresh C).run ops).grantedUnits ≤ C + releasedUnits ops ∧
    (((Semaphore.fresh C).run ops).grantedUnits : Int) - releasedUnits ops ≤ C ∧
    ((∀ n, Op.P n ∈ ops → 1 ≤ n) →
      (((Semaphore.fresh C).run ops).fulfilledCalls : Int) - releasedUnits ops ≤ C) ∧
    (((Semaphore.fresh 1).run ops1).grantedUnits : Int) - releasedUnits ops1 ≤ 1 := by
  have ledger : ∀ (K : Nat) (l : List Op),
      ((Semaphore.fresh K).run l).Ledger K (releasedUnits l) := by
    intro K l
    have h := Semaphore.ledger_run l _ (Semaphore.fresh_ledger K)
    rw [Nat.zero_add] at h
    exact h
  have key : ∀ (K : Nat) (l : List Op),
      ((Semaphore.fresh K).run l).grantedUnits ≤ K + releasedUnits l := fun K l =>
    Semaphore.granted_le _ (ledger K l)
      (Semaphore.run_counterInv l _ (Semaphore.fresh_counterInv K)).1
  have h1 := key C ops
  have h2 := key 1 ops1
  refine ⟨h1, ?_, ?_, ?_⟩
  · omega
  · intro hops
    have := Semaphore.fulfilled_le _ (ledger C ops)
      (Semaphore.flow_run ops _ (Semaphore.fresh_flow _) hops)
      (Semaphore.run_counterInv ops _ (Semaphore.fresh_counterInv C)).1
    omega
  · have : (((Semaphore.fresh 1).run ops1).grantedUnits : Int) ≤ 1 + releasedUnits ops1 := by
      exact_mod_cast h2
    show (((Semaphore.fresh ((1 : Nat) : Int)).run ops1).grantedUnits : Int) - _ ≤ 1
    omega

/-- C20 on `new Semaphore(1)` after `P(1)`, `P(1)`, `P(1)`, `V(1)` and the reaction of the
granted waiter: two acquire calls are fulfilled, one unit was released, and the bound `1`
is met. -/
theorem C20_granted_units_bounded_witness :
    (∀ n, Op.P n ∈ [Op.P 1, .P 1, .P 1, .V 1, .resume 1] → 1 ≤ n) ∧
    ((Semaphore.fresh (1 : Nat)).run [.P 1, .P 1, .P 1, .V 1, .resume 1]).fulfilledCalls = 2 ∧
    releasedUnits [.P 1, .P 1, .P 1, .V 1, .resume 1] = 1 ∧
    (((Semaphore.fresh (1 : Nat)).run [.P 1, .P 1, .P 1, .V 1, .resume 1]).fulfilledCalls : Int)
      - releasedUnits [.P 1, .P 1, .P 1, .V 1, .resume 1] ≤ (1 : Nat) :=
  ⟨by intro n hn; simp at hn; omega, by decide, by decide,
    (C20_granted_units_bounded 1 [.P 1, .P 1, .P 1, .V 1, .resume 1] []).2.2.1
      (by intro n hn; simp at hn; omega)⟩

/-- C18: with `notfull = new Semaphore(K)`, `notempty = new Semaphore(0)` and `items = 0`,
after any sequence of steps of any number of calls of `produce` and `consume`, taken in any
order that lets a call go past its `await` only once its acquire is fulfilled,
`0 <= items <= K`; the example has `K = 10`. -/
theorem C18_stock_stays_within_bounds (K : Nat) (ops ops1 : List StockOp) :
    0 ≤ ((Stock.init K).run ops).items ∧ ((Stock.init K).run ops).items ≤ K ∧
    0 ≤ ((Stock.init 10).run ops1).items ∧ ((Stock.init 10).run ops1).items ≤ 10 := by
  have h := Stock.items_bounds K _ (Stock.run_inv K ops _ (Stock.init_inv K))
  have h1 := Stock.items_bounds 10 _ (Stock.run_inv 10 ops1 _ (Stock.init_inv 10))
  exact ⟨h.1, h.2, h1.1, h1.2⟩

/-! ## The engine agrees with the exact methods within its limits -/

theorem jsDec_exact (x : Int) (h0 : 0 < x) (h : x ≤ exactMax) : jsDec x = x - 1 := by
  unfold jsDec jsRound
  rw [if_pos]
  unfold exactMax at *
  omega

theorem jsInc_exact (x : Int) (h0 : 0 ≤ x) (h : x < exactMax) : jsInc x = x + 1 := by
  unfold jsInc jsRound
  rw [if_pos]
  unfold exactMax at *
  omega

/-- With room on the stack for the `n` units and the counter within `2 ^ 53`, `task` on the
engine returns, with the result of the exact `task`. -/
theorem Semaphore.jsTask_eq (c n d : Nat) (s : Semaphore) (hd : n < d)
    (hs : s._semaphore ≤ exactMax) :
    Semaphore.jsTask c d n s = (.returned, Semaphore.task c n s) := by
  induction n generalizing d s with
  | zero =>
    cases d with
    | zero => omega
    | succ d => rfl
  | succ n ih =>
    cases d with
    | zero => omega
    | succ d =>
      simp only [Semaphore.jsTask, Semaphore.task]
      by_cases hpos : 0 < s._semaphore
      · have hdec := jsDec_exact s._semaphore hpos hs
        have hnn : (0 : Int) ≤ s._semaphore - 1 := by omega
        simp only [hpos, if_true, hdec, hnn]
        exact ih d _ (by omega) (by show s._semaphore - 1 ≤ (exactMax : Int); omega)
      · simp only [hpos, if_false]

theorem Semaphore.jsP_eq (depth n : Nat) (s : Semaphore) (hd : n < depth)
    (hs : s._semaphore ≤ exactMax) : s.jsP depth n = (.returned, s.P n) := by
  unfold Semaphore.jsP
  rw [Semaphore.jsTask_eq s.calls.length n depth
    { s with calls := s.calls ++ [{ requested := n, state := .pending }] } hd hs]
  rfl

theorem Semaphore.jsSignal_eq (s : Semaphore) (h0 : 0 ≤ s._semaphore)
    (hs : s._semaphore < exactMax) : s.jsSignal = s.signal := by
  unfold Semaphore.jsSignal Semaphore.signal
  rw [jsInc_exact _ h0 hs]

theorem Semaphore.signal_semaphore_bounds (s : Semaphore) :
    s._semaphore ≤ s.signal._semaphore ∧ s.signal._semaphore ≤ s._semaphore + 1 := by
  rw [Semaphore.signal_semaphore]
  split <;> omega

theorem Semaphore.jsV_eq (n : Nat) (s : Semaphore) (h0 : 0 ≤ s._semaphore)
    (hs : s._semaphore + n ≤ exactMax) : s.jsV n = s.V n := by
  induction n generalizing s with
  | zero => rfl
  | succ n ih =>
    have hb := Semaphore.signal_semaphore_bounds s
    have h1 : s.jsSignal = s.signal :=
      Semaphore.jsSignal_eq s h0 (by push_cast at hs; omega)
    show s.jsSignal.jsV n = s.signal.V n
    rw [h1]
    exact ih _ (by omega) (by push_cast at hs; omega)

theorem Semaphore.jsResume_eq (depth w : Nat) (s : Semaphore) (hw : s.WaitersBelow depth)
    (hs : s._semaphore ≤ exactMax) : s.jsResume depth w = s.resume w := by
  unfold Semaphore.jsResume Semaphore.resume
  split
  · next x hx =>
    split
    · rw [Semaphore.jsTask_eq x.call x.n depth
        { s with waiters := s.waiters.set w { x with resumed := true } }
        (hw x (List.getElem?_mem hx)) hs]
    · rfl
  · rfl

/-! ## Waiters created below the bound -/

theorem Semaphore.below_set {depth : Nat} {s : Semaphore} (h : s.WaitersBelow depth)
    (w : Nat) (x y : Waiter) (hx : s.waiters[w]? = some x) (hy : y.n = x.n) :
    Semaphore.WaitersBelow depth { s with waiters := s.waiters.set w y } := by
  intro z hz
  rcases List.mem_or_eq_of_mem_set hz with hz | hz
  · exact h z hz
  · rw [hz, hy]
    exact h x (List.getElem?_mem hx)

theorem Semaphore.below_of_eq {depth : Nat} {s t : Semaphore} (h : s.WaitersBelow depth)
    (hw : t.waiters = s.waiters) : t.WaitersBelow depth := by
  unfold Semaphore.WaitersBelow
  rw [hw]
  exact h

theorem Semaphore.below_suspend {depth : Nat} {s : Semaphore} (h : s.WaitersBelow depth)
    (c n : Nat) (hn : n < depth) : (s.suspend c n).WaitersBelow depth := by
  intro z hz
  simp only [Semaphore.suspend, List.mem_append, List.mem_singleton] at hz
  rcases hz with hz | hz
  · exact h z hz
  · rw [hz]
    exact hn

theorem Semaphore.below_task {depth : Nat} (c n : Nat) (s : Semaphore)
    (h : s.WaitersBelow depth) (hn : n ≤ depth) :
    (Semaphore.task c n s).WaitersBelow depth := by
  induction n generalizing s with
  | zero => exact Semaphore.below_of_eq h (Semaphore.settleCall_waiters _ _ _)
  | succ n ih =>
    unfold Semaphore.task
    split
    · show Semaphore.WaitersBelow depth (if _ then _ else _)
      split
      · exact ih _ (Semaphore.below_of_eq h rfl) (by omega)
      · refine Semaphore.below_suspend ?_ c n (by omega)
        exact Semaphore.below_of_eq h rfl
    · exact Semaphore.below_suspend h c n (by omega)

theorem Semaphore.below_resolve {depth : Nat} (w : Nat) (s : Semaphore)
    (h : s.WaitersBelow depth) : (s.resolve w).WaitersBelow depth := by
  unfold Semaphore.resolve
  split
  · next x hx =>
    split
    · exact Semaphore.below_set h w x _ hx rfl
    · exact h
  · exact h

theorem Semaphore.below_reject {depth : Nat} (w : Nat) (s : Semaphore)
    (h : s.WaitersBelow depth) : (s.reject w).WaitersBelow depth := by
  unfold Semaphore.reject
  split
  · next x hx =>
    split
    · exact Semaphore.below_set h w x _ hx rfl
    · exact h
  · exact h

theorem Semaphore.below_signal {depth : Nat} (s : Semaphore) (h : s.WaitersBelow depth) :
    s.signal.WaitersBelow depth := by
  unfold Semaphore.signal
  split
  · split
    · exact Semaphore.below_of_eq (Semaphore.below_resolve _ s h) rfl
    · exact h
  · exact Semaphore.below_of_eq h rfl

theorem Semaphore.below_V {depth : Nat} (n : Nat) (s : Semaphore)
    (h : s.WaitersBelow depth) : (s.V n).WaitersBelow depth := by
  induction n generalizing s with
  | zero => exact h
  | succ n ih => exact ih _ (Semaphore.below_signal s h)

theorem Semaphore.below_rejectAll {depth : Nat} (fuel : Nat) (s : Semaphore)
    (h : s.WaitersBelow depth) : (s.rejectAll fuel).2.WaitersBelow depth := by
  induction fuel generalizing s with
  | zero => exact h
  | succ fuel ih =>
    simp only [Semaphore.rejectAll, Fastq.lengthIsTruthy, if_true]
    split
    · exact h
    · exact ih _ (Semaphore.below_of_eq (Semaphore.below_reject _ s h) rfl)

theorem Semaphore.below_resume {depth : Nat} (w : Nat) (s : Semaphore)
    (h : s.WaitersBelow depth) : (s.resume w).WaitersBelow depth := by
  unfold Semaphore.resume
  split
  · next x hx =>
    split
    · exact Semaphore.below_task _ _ _ (Semaphore.below_set h w x _ hx rfl)
        (Nat.le_of_lt (h x (List.getElem?_mem hx)))
    · split
      · exact Semaphore.below_of_eq h (Semaphore.settleCall_waiters _ _ _)
      · exact h
  · exact h

/-- The counter never exceeds the capacity plus the units released. -/
theorem Semaphore.counter_le {C R : Nat} (s : Semaphore) (h : s.Ledger C R) :
    s._semaphore ≤ (C : Int) + R := by
  have h1 := h.law
  have h2 := h.released
  omega

/-- Within the limits of the engine, a sequence of operations has the same effect on the
engine as with the exact methods. -/
theorem Semaphore.jsRun_eq_of (depth C R : Nat) (ops : List Op) (s : Semaphore)
    (hl : s.Ledger C R) (hc : s.CounterInv) (hw : s.WaitersBelow depth)
    (hP : ∀ n, Op.P n ∈ ops → n < depth)
    (hB : C + R + releasedUnits ops ≤ exactMax) :
    s.jsRun depth ops = s.run ops := by
  induction ops generalizing s R with
  | nil => rfl
  | cons op ops ih =>
    have hle := Semaphore.counter_le s hl
    have hrel : releasedUnits (op :: ops) = op.released + releasedUnits ops := by
      simp [releasedUnits]
    rw [hrel] at hB
    have hstep : s.jsStep depth op = s.step op := by
      cases op with
      | P n =>
        show (s.jsP depth n).2 = s.P n
        rw [Semaphore.jsP_eq depth n s (hP n (List.mem_cons_self _ _))
          (by have : ((C + R : Nat) : Int) ≤ (exactMax : Int) := by exact_mod_cast (by omega)
              push_cast at this; omega)]
      | V n =>
        show s.jsV n = s.V n
        apply Semaphore.jsV_eq n s hc.1
        have : ((C + R + n : Nat) : Int) ≤ (exactMax : Int) := by
          exact_mod_cast (by simp only [Op.released] at hB; omega)
        push_cast at this
        omega
      | rejectAll k => rfl
      | resume w =>
        show s.jsResume depth w = s.resume w
        apply Semaphore.jsResume_eq depth w s hw
        have : ((C + R : Nat) : Int) ≤ (exactMax : Int) := by exact_mod_cast (by omega)
        push_cast at this
        omega
    show (s.jsStep depth op).jsRun depth ops = (s.step op).run ops
    rw [hstep]
    apply ih (R + op.released) (s.step op) (Semaphore.ledger_step op s hl)
      (Semaphore.step_counterInv op s hc)
    · cases op with
      | P n =>
        exact Semaphore.below_task _ _ _ (Semaphore.below_of_eq hw rfl)
          (Nat.le_of_lt (hP n (List.mem_cons_self _ _)))
      | V n => exact Semaphore.below_V n s hw
      | rejectAll k => exact Semaphore.below_rejectAll k s hw
      | resume w => exact Semaphore.below_resume w s hw
    · intro n hn
      exact hP n (List.mem_cons_of_mem _ hn)
    · omega

theorem Semaphore.jsRun_eq (depth C : Nat) (ops : List Op)
    (hP : ∀ n, Op.P n ∈ ops → n < depth) (hB : C + releasedUnits ops ≤ exactMax) :
    (Semaphore.fresh C).jsRun depth ops = (Semaphore.fresh C).run ops :=
  Semaphore.jsRun_eq_of depth C 0 ops _ (Semaphore.fresh_ledger C)
    (Semaphore.fresh_counterInv C) (fun x hx => absurd hx (List.not_mem_nil x)) hP
    (by omega)

/-- With no room on the stack for the `n` units, `task` on the engine takes `depth` units
from the counter and then throws a `RangeError`. -/
theorem Semaphore.jsTask_overflows (c d n : Nat) (s : Semaphore) (hn : d ≤ n)
    (hp : (d : Int) ≤ s._semaphore) (hs : s._semaphore ≤ exactMax) :
    Semaphore.jsTask c d n s = (.threw .rangeError,
      { s with _semaphore := s._semaphore - d,
               trace := s.trace ++ List.replicate d Event.dec }) := by
  induction d generalizing n s with
  | zero => simp [Semaphore.jsTask]
  | succ d ih =>
    cases n with
    | zero => omega
    | succ n =>
      have hpos : 0 < s._semaphore := by push_cast at hp; omega
      have hdec := jsDec_exact s._semaphore hpos hs
      have hnn : (0 : Int) ≤ s._semaphore - 1 := by omega
      simp only [Semaphore.jsTask, hpos, if_true, hdec, hnn]
      rw [ih n _ (by omega) (by show (d : Int) ≤ s._semaphore - 1; push_cast at hp; omega)
        (by show s._semaphore - 1 ≤ (exactMax : Int); omega)]
      congr 2
      · push_cast
        ring
      · simp [List.replicate_succ]

/-! ## The claims settled on the engine -/

/-- C3, as stated, fails: on `new Semaphore(2 ^ 53 + 2)` the argument `n = 1` is at most
the permits `p`, and `P(1)` is fulfilled at once without a waiter, but
`--this._semaphore` rounds to a double: `_semaphore` is `2 ^ 53`, not `p - 1`. -/
theorem C3_fast_path_rounds_above_exact_range :
    Semaphore.new (.int 9007199254740994) = .ok (Semaphore.fresh 9007199254740994) ∧
    (1 : Int) ≤ (Semaphore.fresh 9007199254740994)._semaphore ∧
    ((Semaphore.fresh 9007199254740994).jsP 10000 1).1 = .returned ∧
    ((Semaphore.fresh 9007199254740994).jsP 10000 1).2.calls = [⟨1, .fulfilled⟩] ∧
    ((Semaphore.fresh 9007199254740994).jsP 10000 1).2.waiters = [] ∧
    ((Semaphore.fresh 9007199254740994).jsP 10000 1).2._semaphore = 9007199254740992 ∧
    ((Semaphore.fresh 9007199254740994).jsP 10000 1).2._semaphore ≠
      (Semaphore.fresh 9007199254740994)._semaphore - 1 := by
  have hval : ((Semaphore.fresh 9007199254740994).jsP 10000 1).2._semaphore =
      9007199254740992 := by decide
  refine ⟨by simp [Semaphore.new, JSValue.isInteger], by decide, by decide, by decide,
    by decide, hval, ?_⟩
  rw [hval]
  decide

/-- C3, amended: in any state with `n ≤ _semaphore ≤ 2 ^ 53` and `n` below the number
`depth` of nested calls of `task` the stack has room for, `P(n)` returns with its call
fulfilled at once, `_semaphore` drops by `n`, and the queue and the waiters are as they
were.  With `depth ≤ n` and `depth ≤ _semaphore ≤ 2 ^ 53` instead, `P(n)` throws a
`RangeError` after taking `depth` units, with no call added. -/
theorem C3_acquire_fast_path_within_limits (depth : Nat) (s : Semaphore) (n : Nat) :
    ((n : Int) ≤ s._semaphore → s._semaphore ≤ exactMax → n < depth →
      (s.jsP depth n).1 = .returned ∧
      (s.jsP depth n).2._semaphore = s._semaphore - n ∧
      (s.jsP depth n).2._queue = s._queue ∧
      (s.jsP depth n).2.waiters = s.waiters ∧
      (s.jsP depth n).2.calls = s.calls ++ [⟨n, .fulfilled⟩] ∧
      (s.jsP depth n).2.trace = s.trace ++ List.replicate n Event.dec) ∧
    (depth ≤ n → (depth : Int) ≤ s._semaphore → s._semaphore ≤ exactMax →
      (s.jsP depth n).1 = .threw .rangeError ∧
      (s.jsP depth n).2._semaphore = s._semaphore - depth ∧
      (s.jsP depth n).2.calls = s.calls) := by
  constructor
  · intro hn hp hd
    rw [Semaphore.jsP_eq depth n s hd hp]
    exact ⟨rfl, Semaphore.P_enough s n hn⟩
  · intro hn hp hs
    unfold Semaphore.jsP
    rw [Semaphore.jsTask_overflows s.calls.length depth n
      { s with calls := s.calls ++ [{ requested := n, state := .pending }] } hn hp hs]
    exact ⟨rfl, rfl, rfl⟩

/-- C3 amended, on `new Semaphore(10)`: with room for 11 nested calls `P(10)` is fulfilled
at once and `_semaphore` is `0`; with room for 10 it throws a `RangeError`. -/
theorem C3_acquire_fast_path_within_limits_witness :
    (((10 : Nat) : Int) ≤ (Semaphore.fresh 10)._semaphore ∧
      (Semaphore.fresh 10)._semaphore ≤ exactMax ∧ 10 < 11) ∧
    (((Semaphore.fresh 10).jsP 11 10).1 = .returned ∧
      ((Semaphore.fresh 10).jsP 11 10).2._semaphore = (Semaphore.fresh 10)._semaphore - (10 : Nat) ∧
      ((Semaphore.fresh 10).jsP 11 10).2._queue = (Semaphore.fresh 10)._queue ∧
      ((Semaphore.fresh 10).jsP 11 10).2.waiters = (Semaphore.fresh 10).waiters ∧
      ((Semaphore.fresh 10).jsP 11 10).2.calls =
        (Semaphore.fresh 10).calls ++ [⟨10, .fulfilled⟩] ∧
      ((Semaphore.fresh 10).jsP 11 10).2.trace =
        (Semaphore.fresh 10).trace ++ List.replicate 10 Event.dec) ∧
    (((Semaphore.fresh 10).jsP 10 10).1 = .threw .rangeError ∧
      ((Semaphore.fresh 10).jsP 10 10).2._semaphore =
        (Semaphore.fresh 10)._semaphore - (10 : Nat) ∧
      ((Semaphore.fresh 10).jsP 10 10).2.calls = (Semaphore.fresh 10).calls) :=
  ⟨⟨by decide, by decide, by decide⟩,
    (C3_acquire_fast_path_within_limits 11 (Semaphore.fresh 10) 10).1
      (by decide) (by decide) (by decide),
    (C3_acquire_fast_path_within_limits 10 (Semaphore.fresh 10) 10).2
      (by decide) (by decide) (by decide)⟩

/-- C8 (the code at the failing input): on `new Semaphore(0)`, `P(1)` suspends; its waiter
is with the worker, so the queue that `length()` reports is empty, and `V(1)` increments
`_semaphore` to `1` while that acquire is waiting: a pending waiter with `_semaphore = 1`.
The waiter is still pending after any sequence `ops` of further operations. -/
theorem C8_release_increments_while_waiting (ops : List Op) :
    ((Semaphore.fresh 0).run [.P 1]).waiters = [⟨0, 0, .pending, false⟩] ∧
    ((Semaphore.fresh 0).run [.P 1])._semaphore = 0 ∧
    ((Semaphore.fresh 0).run [.P 1])._queue.length = 0 ∧
    ((Semaphore.fresh 0).run [.P 1, .V 1]).waiters = [⟨0, 0, .pending, false⟩] ∧
    ((Semaphore.fresh 0).run [.P 1, .V 1]).calls = [⟨1, .pending⟩] ∧
    ((Semaphore.fresh 0).run [.P 1, .V 1])._semaphore = 1 ∧
    ((Semaphore.fresh 0).run [.P 1, .V 1]).trace = [.push 0, .inc] ∧
    ((Semaphore.fresh 0).jsRun 10000 [.P 1, .V 1]) = (Semaphore.fresh 0).run [.P 1, .V 1] ∧
    (∃ x, ((Semaphore.fresh 0).run (.P 1 :: .V 1 :: ops)).waiters[0]? = some x ∧
      x.call = 0 ∧ x.state = .pending) := by
  refine ⟨by decide, by decide, by decide, by decide, by decide, by decide, by decide,
    by decide, ?_⟩
  exact (Semaphore.stuck_run (.V 1 :: ops) _ (Semaphore.fresh_P_stuck 0 0)).first

/-- C11, as stated, fails: `new Semaphore(2 ^ 53)` is accepted, and on it `V(1)` leaves
`_semaphore` at `2 ^ 53`, since `++this._semaphore` rounds to a double: not `C + 1`. -/
theorem C11_release_rounds_at_exact_max :
    Semaphore.new (.int 9007199254740992) = .ok (Semaphore.fresh 9007199254740992) ∧
    ((Semaphore.fresh 9007199254740992).jsRun 10000 (List.replicate 1 (.V 1)))._semaphore =
      9007199254740992 ∧
    ((Semaphore.fresh 9007199254740992).jsRun 10000 (List.replicate 1 (.V 1)))._semaphore ≠
      9007199254740992 + 1 := by
  have hval : ((Semaphore.fresh 9007199254740992).jsRun 10000
      (List.replicate 1 (.V 1)))._semaphore = 9007199254740992 := by decide
  refine ⟨by simp [Semaphore.new, JSValue.isInteger], hval, ?_⟩
  rw [hval]
  decide

/-- C11, amended: for every capacity `C` and every `k` with `C + k ≤ 2 ^ 53`, `k` calls of
`V(1)` on a new semaphore with no acquire before them give `_semaphore = C + k` with the
queue still empty. -/
theorem C11_over_release_within_exact_range (depth C k : Nat) (h : C + k ≤ exactMax) :
    ((Semaphore.fresh C).jsRun depth (List.replicate k (.V 1)))._semaphore = (C : Int) + k ∧
    ((Semaphore.fresh C).jsRun depth (List.replicate k (.V 1)))._queue.getQueue = [] ∧
    ((Semaphore.fresh C).jsRun depth (List.replicate k (.V 1)))._queue.length = 0 := by
  have hrel : releasedUnits (List.replicate k (.V 1)) = k := by
    induction k with
    | zero => rfl
    | succ k ih =>
      have := ih (by omega)
      simp only [releasedUnits, List.replicate_succ, List.map_cons, List.sum_cons,
        Op.released] at this ⊢
      omega
  rw [Semaphore.jsRun_eq depth C _
    (fun n hn => by simp [List.mem_replicate] at hn) (by rw [hrel]; exact h)]
  have := Semaphore.over_release_exact C k
  exact ⟨this.1, this.2.1, this.2.2.1⟩

/-- C11 amended, on `new Semaphore(10)` with ten calls of `V(1)`: `_semaphore` is `20`. -/
theorem C11_over_release_within_exact_range_witness :
    10 + 10 ≤ exactMax ∧
    ((Semaphore.fresh (10 : Nat)).jsRun 10000 (List.replicate 10 (.V 1)))._semaphore =
      ((10 : Nat) : Int) + (10 : Nat) ∧
    ((Semaphore.fresh (10 : Nat)).jsRun 10000 (List.replicate 10 (.V 1)))._queue.getQueue =
      [] ∧
    ((Semaphore.fresh (10 : Nat)).jsRun 10000 (List.replicate 10 (.V 1)))._queue.length = 0 :=
  ⟨by decide, C11_over_release_within_exact_range 10000 10 10 (by decide)⟩

/-- C10, amended: starting with capacity `C`, after any sequence of operations whose
acquires ask for fewer units than the stack has room for nested calls and whose releases
total `R` units with `C + R ≤ 2 ^ 53`, `permits == C - U - H + R` and `permits >= 0`,
where `U` counts the units the acquire calls have taken from the counter (calls completed,
pending or cancelled alike) and `H` the units that release passed to the head of the wait
queue instead of the counter; when every acquire call issued has fully completed this is
`permits == C - A + R`. -/
theorem C10_conservation_by_units (depth C : Nat) (ops : List Op)
    (hP : ∀ n, Op.P n ∈ ops → n < depth) (hB : C + releasedUnits ops ≤ exactMax) :
    ((Semaphore.fresh C).jsRun depth ops)._semaphore =
      (C : Int) - ((Semaphore.fresh C).jsRun depth ops).fastUnits
        - ((Semaphore.fresh C).jsRun depth ops).resolveCalls + releasedUnits ops ∧
    0 ≤ ((Semaphore.fresh C).jsRun depth ops)._semaphore ∧
    ((∀ c ∈ ((Semaphore.fresh C).jsRun depth ops).calls, c.state = .fulfilled) →
      ((Semaphore.fresh C).jsRun depth ops)._semaphore =
        (C : Int) - ((Semaphore.fresh C).jsRun depth ops).completedUnits
          + releasedUnits ops) := by
  rw [Semaphore.jsRun_eq depth C ops hP hB]
  have hl := Semaphore.ledger_run ops _ (Semaphore.fresh_ledger C)
  rw [Nat.zero_add] at hl
  have hc := Semaphore.run_counterInv ops _ (Semaphore.fresh_counterInv C)
  refine ⟨?_, hc.1, ?_⟩
  · have h1 := hl.law
    have h2 := hl.released
    omega
  · intro hdone
    exact (Semaphore.conservation_of_done C ops hdone).1

/-- C10 amended, on `new Semaphore(0)` after `P(1)`, `P(1)`, `V(1)`, `V(1)` and the
reaction of waiter `1`: no unit was taken from the counter, two were passed to the head of
the queue, two were released, and `_semaphore = 0 - 0 - 2 + 2`; and on `new Semaphore(3)`
after `P(2)`, `V(1)`, `P(1)`, where every acquire has completed, `_semaphore = 3 - 3 + 1`. -/
theorem C10_conservation_by_units_witness :
    ((∀ n, Op.P n ∈ [Op.P 1, .P 1, .V 1, .V 1, .resume 1] → n < 10000) ∧
      0 + releasedUnits [.P 1, .P 1, .V 1, .V 1, .resume 1] ≤ exactMax) ∧
    ((Semaphore.fresh (0 : Nat)).jsRun 10000 [.P 1, .P 1, .V 1, .V 1, .resume 1]).fastUnits
      = 0 ∧
    ((Semaphore.fresh (0 : Nat)).jsRun 10000
      [.P 1, .P 1, .V 1, .V 1, .resume 1]).resolveCalls = 2 ∧
    ((Semaphore.fresh (0 : Nat)).jsRun 10000 [.P 1, .P 1, .V 1, .V 1, .resume 1])._semaphore
      = ((0 : Nat) : Int)
        - ((Semaphore.fresh (0 : Nat)).jsRun 10000
            [.P 1, .P 1, .V 1, .V 1, .resume 1]).fastUnits
        - ((Semaphore.fresh (0 : Nat)).jsRun 10000
            [.P 1, .P 1, .V 1, .V 1, .resume 1]).resolveCalls
        + releasedUnits [.P 1, .P 1, .V 1, .V 1, .resume 1] ∧
    (∀ c ∈ ((Semaphore.fresh (3 : Nat)).jsRun 10000 [.P 2, .V 1, .P 1]).calls,
      c.state = .fulfilled) ∧
    ((Semaphore.fresh (3 : Nat)).jsRun 10000 [.P 2, .V 1, .P 1])._semaphore =
      ((3 : Nat) : Int)
        - ((Semaphore.fresh (3 : Nat)).jsRun 10000 [.P 2, .V 1, .P 1]).completedUnits
        + releasedUnits [.P 2, .V 1, .P 1] :=
  ⟨⟨by intro n hn; simp at hn; omega, by decide⟩, by decide, by decide,
    (C10_conservation_by_units 10000 0 [.P 1, .P 1, .V 1, .V 1, .resume 1]
      (by intro n hn; simp at hn; omega) (by decide)).1,
    by decide,
    (C10_conservation_by_units 10000 3 [.P 2, .V 1, .P 1]
      (by intro n hn; simp at hn; omega) (by decide)).2.2 (by decide)⟩
